import Mathlib

set_option linter.unusedVariables false

/-!
Shallow embedding of `directedgraph/directedgraph.go` from the golib repository.

Go maps (`map[string]interface{}`, `map[string]map[string]bool`) are modelled as
association lists; map lookup reads the first matching entry and map assignment
(`upsert`) replaces it in place, appending when the key is absent.  The DFS
helpers of the source (`isCyclicDFS`, `topSort`) are recursive with no
structural measure, so they are embedded with an explicit fuel argument; the
public entry points (`IsCyclic`, `TopSort`) pass `len(nodes) + 1` fuel, which is
shown sufficient on well-formed graphs (the graphs reachable through the API).
The `seen`/`rs` maps-to-bool of the source are modelled as key lists: setting a
key true is insertion, setting it false (`rs[to] = false`) is removal of the
entry (`merase`), which agrees with the map because those maps are only ever
read through their boolean value.
-/

namespace Golib

abbrev Key := String

/-- Errors of the source: `ErrorNodeNotFound`, `ErrorNodeAlreadyExists`, `ErrorGraphIsCyclic`. -/
inductive Err where
  | nodeNotFound
  | nodeAlreadyExists
  | graphIsCyclic
deriving DecidableEq

/-- The `DirectedGraph` struct: node table and adjacency table. -/
structure DirectedGraph (V : Type) where
  nodes : List (Key × V)
  edges : List (Key × List (Key × Bool))
deriving DecidableEq

/-- The constructor `New`: an empty graph. -/
def New (V : Type) : DirectedGraph V :=
  { nodes := [], edges := [] }

/-- Go map read `m[k]` (first matching entry of the association list). -/
def lookupKey {β : Type} (k : Key) : List (Key × β) → Option β
  | [] => none
  | (k', v) :: rest => if k' = k then some v else lookupKey k rest

/-- Go map assignment `m[k] = v`: replace in place, append when absent. -/
def upsert {β : Type} (k : Key) (v : β) : List (Key × β) → List (Key × β)
  | [] => [(k, v)]
  | (k', v') :: rest => if k' = k then (k, v) :: rest else (k', v') :: upsert k v rest

variable {V : Type}

/-- The operation `NewNode`: error on duplicate key, otherwise insert the node together with
an empty adjacency entry (`g.edges[key] = make(map[string]bool)`). -/
def NewNode (g : DirectedGraph V) (key : Key) (value : V) : Option Err × DirectedGraph V :=
  if (lookupKey key g.nodes).isSome then (some .nodeAlreadyExists, g)
  else (none, { nodes := upsert key value g.nodes, edges := upsert key [] g.edges })

/-- The operation `Value`: the value stored at `key`, or `ErrorNodeNotFound`. -/
def Value (g : DirectedGraph V) (key : Key) : Option V × Option Err :=
  match lookupKey key g.nodes with
  | none => (none, some .nodeNotFound)
  | some v => (some v, none)

/-- The operation `UpdateValue`: replace the value of an existing node. -/
def UpdateValue (g : DirectedGraph V) (key : Key) (value : V) : Option Err × DirectedGraph V :=
  match lookupKey key g.nodes with
  | none => (some .nodeNotFound, g)
  | some _ => (none, { nodes := upsert key value g.nodes, edges := g.edges })

/-- The adjacency entry of `k` (`g.edges[k]`; a missing entry reads as the
empty map, which is how the traversals consume it). -/
def lookupE (g : DirectedGraph V) (k : Key) : List (Key × Bool) :=
  (lookupKey k g.edges).getD []

/-- The operation `NewEdge`: both endpoints must exist; then
`g.edges[from][to] = true`.  (If `from` had no adjacency entry the Go
assignment would hit a nil map; that state is unreachable, since `NewNode`
creates the entry together with the node — the model upserts the entry.) -/
def NewEdge (g : DirectedGraph V) (a b : Key) : Option Err × DirectedGraph V :=
  if (lookupKey a g.nodes).isNone then (some .nodeNotFound, g)
  else if (lookupKey b g.nodes).isNone then (some .nodeNotFound, g)
  else (none, { nodes := g.nodes, edges := upsert a (upsert b true (lookupE g a)) g.edges })

/-- The operation `Edges`: keys of the entries of `g.edges[from]` whose boolean is true. -/
def Edges (g : DirectedGraph V) (a : Key) : List Key × Option Err :=
  match lookupKey a g.nodes with
  | none => ([], some .nodeNotFound)
  | some _ => (((lookupE g a).filter (fun p => p.2)).map (fun p => p.1), none)

/-- The keys of the node table. -/
def nodeKeys (g : DirectedGraph V) : List Key :=
  g.nodes.map Prod.fst

/-- There is an active edge `u → v`: some entry `(v, true)` in `g.edges[u]`. -/
def hasEdge (g : DirectedGraph V) (u v : Key) : Bool :=
  (lookupE g u).any (fun p => p.2 && decide (p.1 = v))

/-- Reachability along active edges (reflexive-transitive closure). -/
def Reaches (g : DirectedGraph V) : Key → Key → Prop :=
  Relation.ReflTransGen (fun a b => hasEdge g a b = true)

/-- The graph contains a directed cycle: a non-empty path from a node to itself. -/
def CycleExists (g : DirectedGraph V) : Prop :=
  ∃ u v, hasEdge g u v = true ∧ Reaches g v u

/-- Well-formedness of a graph state: node keys are distinct (they model a Go
map), the adjacency table has exactly one entry per node key, and every
adjacency entry lists distinct targets, all marked `true`, all of them node
keys.  All graph states reachable through the API satisfy this. -/
def WF (g : DirectedGraph V) : Prop :=
  (nodeKeys g).Nodup ∧
  (g.edges.map Prod.fst).Nodup ∧
  (∀ k ∈ nodeKeys g, k ∈ g.edges.map Prod.fst) ∧
  (∀ k ∈ g.edges.map Prod.fst, k ∈ nodeKeys g) ∧
  (∀ e ∈ g.edges, (e.2.map Prod.fst).Nodup ∧ ∀ q ∈ e.2, q.2 = true ∧ q.1 ∈ nodeKeys g)

instance (g : DirectedGraph V) : Decidable (WF g) := by
  unfold WF; infer_instance

/-- Graph states reachable from `New` by any sequence of operations. -/
inductive Reachable {V : Type} : DirectedGraph V → Prop where
  | init : Reachable (New V)
  | node (g : DirectedGraph V) (k : Key) (v : V) : Reachable g → Reachable (NewNode g k v).2
  | edge (g : DirectedGraph V) (a b : Key) : Reachable g → Reachable (NewEdge g a b).2
  | update (g : DirectedGraph V) (k : Key) (v : V) : Reachable g → Reachable (UpdateValue g k v).2

/-- Assignment `m[k] = true` on a map-to-bool modelled as the list of keys mapped to true. -/
def minsert (k : Key) (l : List Key) : List Key :=
  if k ∈ l then l else k :: l

/-- Assignment `m[k] = false` on a map-to-bool modelled as the list of keys mapped to true. -/
def merase (k : Key) : List Key → List Key
  | [] => []
  | a :: rest => if a = k then rest else a :: merase k rest

/-- The loop body of `isCyclicDFS`: iterate the adjacency entries, recursing
through `child` on active ones and clearing the recursion-stack mark of the
target after each edge (`rs[to] = false`), aborting on the first `true`. -/
def dfsFold (child : List Key → List Key → Key → Bool × List Key × List Key) :
    List (Key × Bool) → List Key → List Key → Bool × List Key × List Key
  | [], seen, rs => (false, seen, rs)
  | (t, active) :: rest, seen, rs =>
    if active then
      match child seen rs t with
      | (true, s, r) => (true, s, r)
      | (false, s, r) => dfsFold child rest s (merase t r)
    else dfsFold child rest seen (merase t rs)

/-- The recursion `isCyclicDFS` with fuel: mark `seen`, report a cycle when `key` is on the
recursion stack, otherwise push `key` and walk the adjacency list.  Exhausted
fuel reports `true`; `IsCyclic` passes enough fuel for this never to happen on
well-formed graphs. -/
def isCyclicDFS (g : DirectedGraph V) : Nat → List Key → List Key → Key → Bool × List Key × List Key
  | 0, seen, rs, _ => (true, seen, rs)
  | fuel + 1, seen, rs, key =>
    let seen1 := minsert key seen
    if key ∈ rs then (true, seen1, rs)
    else dfsFold (fun s r k => isCyclicDFS g fuel s r k) (lookupE g key) seen1 (key :: rs)

/-- The loop of `IsCyclic`: run the DFS from every not-yet-seen node, with a
fresh recursion stack per partition. -/
def isCyclicGo (g : DirectedGraph V) (fuel : Nat) : List (Key × V) → List Key → Bool
  | [], _ => false
  | (key, _) :: rest, seen =>
    if key ∈ seen then isCyclicGo g fuel rest seen
    else
      match isCyclicDFS g fuel seen [] key with
      | (true, _, _) => true
      | (false, s, _) => isCyclicGo g fuel rest s

/-- The operation `IsCyclic`: cycle test of the source. -/
def IsCyclic (g : DirectedGraph V) : Bool :=
  isCyclicGo g (g.nodes.length + 1) g.nodes []

/-- Number of node keys not on the recursion stack (fuel measure). -/
def unseenCnt (g : DirectedGraph V) (rs : List Key) : Nat :=
  ((nodeKeys g).filter (fun k => decide (k ∉ rs))).length

/-- The recursion stack is a chain of edges ending in an edge into `key`. -/
def stackChain (g : DirectedGraph V) : List Key → Key → Prop
  | [], _ => True
  | a :: rest, key => hasEdge g a key = true ∧ stackChain g rest a

/-- A cycle is reachable from `key`. -/
def CycFrom (g : DirectedGraph V) (key : Key) : Prop :=
  ∃ u v, Reaches g key u ∧ hasEdge g u v = true ∧ Reaches g v u

/-- The loop body of `topSort`: iterate the adjacency entries (the boolean is
ignored by the source here), recursing through `child` on unseen targets. -/
def topSortFold (child : List Key → List Key → Nat → Key → List Key × List Key × Nat) :
    List (Key × Bool) → List Key → List Key → Nat → List Key × List Key × Nat
  | [], seen, order, i => (seen, order, i)
  | (t, _) :: rest, seen, order, i =>
    if t ∈ seen then topSortFold child rest seen order i
    else
      match child seen order i t with
      | (s, o, j) => topSortFold child rest s o j

/-- The recursion `topSort` with fuel: mark `seen`, recurse into unseen successors, then
write `key` at slot `i` and return `i - 1` (reverse finishing order). -/
def topSortDFS (g : DirectedGraph V) : Nat → List Key → List Key → Nat → Key → List Key × List Key × Nat
  | 0, seen, order, i, _ => (seen, order, i)
  | fuel + 1, seen, order, i, key =>
    match topSortFold (fun s o j k => topSortDFS g fuel s o j k) (lookupE g key) (minsert key seen) order i with
    | (s, o, j) => (s, o.set j key, j - 1)

/-- The loop of `TopSort`: run the sorting DFS from every not-yet-seen node. -/
def topSortGo (g : DirectedGraph V) (fuel : Nat) : List (Key × V) → List Key → List Key → Nat → List Key
  | [], _, order, _ => order
  | (key, _) :: rest, seen, order, i =>
    if key ∈ seen then topSortGo g fuel rest seen order i
    else
      match topSortDFS g fuel seen order i key with
      | (s, o, j) => topSortGo g fuel rest s o j

/-- The operation `TopSort`: slice of all node keys in reverse DFS finishing order. -/
def TopSort (g : DirectedGraph V) : List Key :=
  topSortGo g (g.nodes.length + 1) g.nodes [] (List.replicate g.nodes.length "") (g.nodes.length - 1)

/-- A sequence is topologically valid: every member's successors lie strictly
later in the sequence. -/
def validSeq (g : DirectedGraph V) : List Key → Prop
  | [] => True
  | u :: rest => (∀ v, hasEdge g u v = true → v ∈ rest) ∧ validSeq g rest

/-- Index of the first occurrence of a key. -/
def posOf (k : Key) : List Key → Nat
  | [] => 0
  | a :: rest => if a = k then 0 else posOf k rest + 1

/-- Events of the cycle-detection traversal: entering a node (recording whether
it was already globally seen), finishing a node (returning false from its DFS
call), and clearing a recursion-stack mark (`rs[to] = false`). -/
inductive DFSEvent where
  | enter (k : Key) (wasSeen : Bool)
  | exit (k : Key)
  | clear (k : Key)
deriving DecidableEq

/-- Instrumented loop body of `isCyclicDFS`, emitting `clear` events. -/
def tdfsFold (child : List Key → List Key → Key → Bool × List Key × List Key × List DFSEvent)
    (key : Key) :
    List (Key × Bool) → List Key → List Key → Bool × List Key × List Key × List DFSEvent
  | [], seen, rs => (false, seen, rs, [DFSEvent.exit key])
  | (t, active) :: rest, seen, rs =>
    if active then
      match child seen rs t with
      | (true, s, r, ev) => (true, s, r, ev)
      | (false, s, r, ev) =>
        match tdfsFold child key rest s (merase t r) with
        | (b, s', r', ev') => (b, s', r', ev ++ DFSEvent.clear t :: ev')
    else
      match tdfsFold child key rest seen (merase t rs) with
      | (b, s', r', ev') => (b, s', r', DFSEvent.clear t :: ev')

/-- Instrumented `isCyclicDFS`, same traversal plus its event trace. -/
def tdfsA (g : DirectedGraph V) : Nat → List Key → List Key → Key → Bool × List Key × List Key × List DFSEvent
  | 0, seen, rs, _ => (true, seen, rs, [])
  | fuel + 1, seen, rs, key =>
    let flag := decide (key ∈ seen)
    let seen1 := minsert key seen
    if key ∈ rs then (true, seen1, rs, [DFSEvent.enter key flag])
    else
      match tdfsFold (fun s r k => tdfsA g fuel s r k) key (lookupE g key) seen1 (key :: rs) with
      | (b, s, r, ev) => (b, s, r, DFSEvent.enter key flag :: ev)

/-- Instrumented loop of `IsCyclic`. -/
def tIsCyclicGo (g : DirectedGraph V) (fuel : Nat) : List (Key × V) → List Key → Bool × List DFSEvent
  | [], _ => (false, [])
  | (key, _) :: rest, seen =>
    if key ∈ seen then tIsCyclicGo g fuel rest seen
    else
      match tdfsA g fuel seen [] key with
      | (true, _, _, ev) => (true, ev)
      | (false, s, _, ev) =>
        match tIsCyclicGo g fuel rest s with
        | (b, evs) => (b, ev ++ evs)

/-- The cycle test together with the trace of its traversal. -/
def tIsCyclic (g : DirectedGraph V) : Bool × List DFSEvent :=
  tIsCyclicGo g (g.nodes.length + 1) g.nodes []

/-- When `e` is a `clear k` event, the event before it must be `exit k`. -/
def clearCheck (prev e : DFSEvent) : Bool :=
  match e with
  | DFSEvent.clear k => decide (prev = DFSEvent.exit k)
  | _ => true

/-- Scan a trace checking that every `clear k` is immediately preceded by
`exit k`; `prev` is the event before the scanned suffix. -/
def pairsOKFrom (prev : DFSEvent) : List DFSEvent → Bool
  | [] => true
  | e :: rest => clearCheck prev e && pairsOKFrom e rest

/-- Every `clear k` in the trace is immediately preceded by `exit k`: the
recursion-stack mark of a node is cleared exactly when that node's subtree
exploration has completed. -/
def clearsOK : List DFSEvent → Bool
  | [] => true
  | e :: rest =>
    (match e with
     | DFSEvent.clear _ => false
     | _ => true) && pairsOKFrom e rest

/-- Last event of a trace, with default `d` for the empty trace. -/
def lastEv (d : DFSEvent) : List DFSEvent → DFSEvent
  | [] => d
  | e :: rest => lastEv e rest

/-- The diamond graph a→b, a→c, b→d, c→d (acyclic; `d` is reached twice). -/
def gDiamond : DirectedGraph Nat :=
  { nodes := [("a", 1), ("b", 2), ("c", 3), ("d", 4)],
    edges := [("a", [("b", true), ("c", true)]), ("b", [("d", true)]),
              ("c", [("d", true)]), ("d", [])] }

/-- A two-node cycle a→b, b→a. -/
def gCyc : DirectedGraph Nat :=
  { nodes := [("a", 1), ("b", 2)],
    edges := [("a", [("b", true)]), ("b", [("a", true)])] }

/-- The graph built by `NewNode a; NewNode b; NewEdge a b` (for reachability). -/
def gStep : DirectedGraph Nat :=
  (NewEdge (NewNode (NewNode (New Nat) "a" 1).2 "b" 2).2 "a" "b").2

/-- Lock operations performed by an operation's control flow. -/
inductive LockEvent where
  | rlock
  | runlock
deriving DecidableEq

/-- The operation `Edges` instrumented with the lock events its control flow
performs, transcribed from the source: `g.lock.RLock()` is called at the top
of the function (with no `defer`), the `ErrorNodeNotFound` early return leaves
the function without any unlock, and `g.lock.RUnlock()` runs only after the
loop on the success path. -/
def EdgesLocked (g : DirectedGraph V) (a : Key) :
    (List Key × Option Err) × List LockEvent :=
  match lookupKey a g.nodes with
  | none => (([], some .nodeNotFound), [LockEvent.rlock])
  | some _ => ((((lookupE g a).filter (fun p => p.2)).map (fun p => p.1), none),
      [LockEvent.rlock, LockEvent.runlock])

/-! ### Association-list lemmas -/

theorem lookupKey_upsert_self {β : Type} (k : Key) (v : β) (l : List (Key × β)) :
    lookupKey k (upsert k v l) = some v := by
  induction l with
  | nil => simp [upsert, lookupKey]
  | cons p rest ih =>
    obtain ⟨k', v'⟩ := p
    by_cases h : k' = k
    · simp [upsert, h, lookupKey]
    · simp [upsert, h, lookupKey, ih]

theorem lookupKey_upsert_ne {β : Type} (k k' : Key) (v : β) (l : List (Key × β))
    (h : k' ≠ k) : lookupKey k' (upsert k v l) = lookupKey k' l := by
  have h' : k ≠ k' := Ne.symm h
  induction l with
  | nil => simp [upsert, lookupKey, h']
  | cons p rest ih =>
    obtain ⟨a, w⟩ := p
    by_cases ha : a = k
    · subst ha
      simp [upsert, lookupKey, h']
    · simp [upsert, ha, lookupKey, ih]

theorem lookupKey_isSome_iff_mem {β : Type} (k : Key) (l : List (Key × β)) :
    (lookupKey k l).isSome ↔ k ∈ l.map Prod.fst := by
  induction l with
  | nil => simp [lookupKey]
  | cons p rest ih =>
    obtain ⟨a, w⟩ := p
    by_cases ha : a = k
    · simp [lookupKey, ha]
    · simp [lookupKey, ha, ih, Ne.symm ha]

theorem mem_of_lookupKey {β : Type} {k : Key} {l : List (Key × β)} {x : β}
    (h : lookupKey k l = some x) : (k, x) ∈ l := by
  induction l with
  | nil => simp [lookupKey] at h
  | cons p rest ih =>
    obtain ⟨a, w⟩ := p
    by_cases ha : a = k
    · subst ha
      simp [lookupKey] at h
      simp [h]
    · simp [lookupKey, ha] at h
      exact List.mem_cons_of_mem _ (ih h)

theorem upsert_map_fst_of_mem {β : Type} (k : Key) (v : β) (l : List (Key × β))
    (h : k ∈ l.map Prod.fst) : (upsert k v l).map Prod.fst = l.map Prod.fst := by
  induction l with
  | nil => simp at h
  | cons p rest ih =>
    obtain ⟨a, w⟩ := p
    by_cases ha : a = k
    · simp [upsert, ha]
    · rw [List.map_cons] at h
      rcases List.mem_cons.1 h with h | h
      · exact absurd h.symm ha
      · simp [upsert, ha, ih h]

theorem upsert_of_not_mem {β : Type} (k : Key) (v : β) (l : List (Key × β))
    (h : k ∉ l.map Prod.fst) : upsert k v l = l ++ [(k, v)] := by
  induction l with
  | nil => simp [upsert]
  | cons p rest ih =>
    obtain ⟨a, w⟩ := p
    rw [List.map_cons] at h
    have ha : a ≠ k := fun hh => h (by simp [hh])
    have hr : k ∉ rest.map Prod.fst := fun hh => h (List.mem_cons_of_mem _ hh)
    simp [upsert, ha, ih hr]

theorem mem_upsert {β : Type} {e : Key × β} {k : Key} {v : β} {l : List (Key × β)}
    (h : e ∈ upsert k v l) : e = (k, v) ∨ e ∈ l := by
  induction l with
  | nil => simpa [upsert] using h
  | cons p rest ih =>
    obtain ⟨a, w⟩ := p
    by_cases ha : a = k
    · simp [upsert, ha] at h
      rcases h with h | h
      · exact Or.inl h
      · exact Or.inr (List.mem_cons_of_mem _ h)
    · simp [upsert, ha] at h
      rcases h with h | h
      · exact Or.inr (by simp [h])
      · rcases ih h with h' | h'
        · exact Or.inl h'
        · exact Or.inr (List.mem_cons_of_mem _ h')

theorem upsert_upsert_self {β : Type} (k : Key) (v : β) (l : List (Key × β)) :
    upsert k v (upsert k v l) = upsert k v l := by
  induction l with
  | nil => simp [upsert]
  | cons p rest ih =>
    obtain ⟨a, w⟩ := p
    by_cases ha : a = k
    · simp [upsert, ha]
    · simp [upsert, ha, ih]

/-! ### C7: failed operations are no-ops -/

/-- C7: whenever `NewNode`, `NewEdge`, or `UpdateValue` returns a non-nil
error, the graph (node table and adjacency table) afterwards equals its value
before the call. -/
theorem failed_ops_leave_graph_unchanged (g : DirectedGraph V) :
    (∀ k v e, (NewNode g k v).1 = some e → (NewNode g k v).2 = g) ∧
    (∀ a b e, (NewEdge g a b).1 = some e → (NewEdge g a b).2 = g) ∧
    (∀ k v e, (UpdateValue g k v).1 = some e → (UpdateValue g k v).2 = g) := by
  refine ⟨?_, ?_, ?_⟩
  · intro k v e h
    by_cases hk : (lookupKey k g.nodes).isSome
    · simp [NewNode, hk]
    · simp [NewNode, hk] at h
  · intro a b e h
    by_cases ha : (lookupKey a g.nodes).isNone
    · simp [NewEdge, ha]
    · by_cases hb : (lookupKey b g.nodes).isNone
      · simp [NewEdge, ha, hb]
      · simp [NewEdge, ha, hb] at h
  · intro k v e h
    cases hx : lookupKey k g.nodes with
    | none => simp [UpdateValue, hx]
    | some w => simp [UpdateValue, hx] at h

/-- C7 witness: the three failing calls on a concrete graph are no-ops. -/
theorem failed_ops_leave_graph_unchanged_concrete :
    (NewNode gDiamond "a" 9).2 = gDiamond ∧
    (NewEdge gDiamond "a" "z").2 = gDiamond ∧
    (UpdateValue gDiamond "z" 9).2 = gDiamond :=
  ⟨(failed_ops_leave_graph_unchanged gDiamond).1 "a" 9 Err.nodeAlreadyExists (by decide),
   (failed_ops_leave_graph_unchanged gDiamond).2.1 "a" "z" Err.nodeNotFound (by decide),
   (failed_ops_leave_graph_unchanged gDiamond).2.2 "z" 9 Err.nodeNotFound (by decide)⟩

/-! ### C6: NewNode then Value -/

/-- C6: on a fresh key `NewNode` succeeds and `Value` then returns the stored
value; a second `NewNode` on the same key fails with `ErrorNodeAlreadyExists`
and leaves the stored value unchanged. -/
theorem newNode_then_value (g : DirectedGraph V) (k : Key) (v v2 : V)
    (h : lookupKey k g.nodes = none) :
    (NewNode g k v).1 = none ∧
    Value (NewNode g k v).2 k = (some v, none) ∧
    (NewNode (NewNode g k v).2 k v2).1 = some Err.nodeAlreadyExists ∧
    Value (NewNode (NewNode g k v).2 k v2).2 k = (some v, none) := by
  have hs : ¬ (lookupKey k g.nodes).isSome = true := by simp [h]
  have h1 : NewNode g k v = (none, { nodes := upsert k v g.nodes, edges := upsert k [] g.edges }) := by
    simp [NewNode, hs]
  have hv : lookupKey k (NewNode g k v).2.nodes = some v := by
    rw [h1]; exact lookupKey_upsert_self k v g.nodes
  have hs2 : (lookupKey k (NewNode g k v).2.nodes).isSome = true := by simp [hv]
  have h2 : NewNode (NewNode g k v).2 k v2 = (some Err.nodeAlreadyExists, (NewNode g k v).2) := by
    generalize hG : (NewNode g k v).2 = g1 at hs2 ⊢
    simp [NewNode, hs2]
  exact ⟨by rw [h1], by simp [Value, hv], by rw [h2], by rw [h2]; simp [Value, hv]⟩

/-- C6 witness at a concrete graph and fresh key. -/
theorem newNode_then_value_concrete :
    (NewNode gDiamond "e" 7).1 = none ∧
    Value (NewNode gDiamond "e" 7).2 "e" = (some 7, none) ∧
    (NewNode (NewNode gDiamond "e" 7).2 "e" 8).1 = some Err.nodeAlreadyExists ∧
    Value (NewNode (NewNode gDiamond "e" 7).2 "e" 8).2 "e" = (some 7, none) :=
  newNode_then_value gDiamond "e" 7 8 (by decide)

/-! ### C5: NewEdge errors and idempotence -/

/-- C5: `NewEdge a b` fails with `ErrorNodeNotFound` when either endpoint is
missing; otherwise it succeeds and is idempotent — adding the edge twice gives
the same successor set (`Edges a`) as adding it once. -/
theorem newEdge_error_and_idempotent (g : DirectedGraph V) (a b : Key) :
    (((lookupKey a g.nodes).isNone ∨ (lookupKey b g.nodes).isNone) →
      (NewEdge g a b).1 = some Err.nodeNotFound) ∧
    ((lookupKey a g.nodes).isSome → (lookupKey b g.nodes).isSome →
      (NewEdge g a b).1 = none ∧
      Edges (NewEdge (NewEdge g a b).2 a b).2 a = Edges (NewEdge g a b).2 a) := by
  constructor
  · intro h
    rcases h with h | h
    · simp [NewEdge, h]
    · by_cases ha : (lookupKey a g.nodes).isNone
      · simp [NewEdge, ha]
      · simp [NewEdge, ha, h]
  · intro ha hb
    obtain ⟨x, hx⟩ := Option.isSome_iff_exists.mp ha
    obtain ⟨y, hy⟩ := Option.isSome_iff_exists.mp hb
    have h1 : NewEdge g a b =
        (none, { nodes := g.nodes, edges := upsert a (upsert b true (lookupE g a)) g.edges }) := by
      simp [NewEdge, hx, hy]
    have hsame : NewEdge (NewEdge g a b).2 a b = (none, (NewEdge g a b).2) := by
      rw [h1]
      have hE2 : lookupE (⟨g.nodes, upsert a (upsert b true (lookupE g a)) g.edges⟩ : DirectedGraph V) a
          = upsert b true (lookupE g a) := by
        simp [lookupE, lookupKey_upsert_self]
      simp only [NewEdge, hE2, hx, hy]
      rw [upsert_upsert_self, upsert_upsert_self]
      simp
    exact ⟨by rw [h1], by rw [hsame]⟩

/-- C5 witness: a failing call and a succeeding call on a concrete graph. -/
theorem newEdge_error_and_idempotent_concrete :
    (NewEdge gDiamond "a" "z").1 = some Err.nodeNotFound ∧
    (NewEdge gDiamond "a" "d").1 = none :=
  ⟨(newEdge_error_and_idempotent gDiamond "a" "z").1 (Or.inr (by decide)),
   ((newEdge_error_and_idempotent gDiamond "a" "d").2 (by decide) (by decide)).1⟩

/-! ### C10: UpdateValue frame -/

/-- C10: `UpdateValue` on an existing key succeeds, stores the new value, and
changes nothing else: other keys' values, the set of node keys, and the whole
adjacency table are untouched. -/
theorem updateValue_frame (g : DirectedGraph V) (k : Key) (v : V)
    (h : (lookupKey k g.nodes).isSome) :
    (UpdateValue g k v).1 = none ∧
    Value (UpdateValue g k v).2 k = (some v, none) ∧
    (∀ k', k' ≠ k → Value (UpdateValue g k v).2 k' = Value g k') ∧
    nodeKeys (UpdateValue g k v).2 = nodeKeys g ∧
    (UpdateValue g k v).2.edges = g.edges := by
  rw [Option.isSome_iff_exists] at h
  obtain ⟨w, hw⟩ := h
  have h2 : (UpdateValue g k v).2 = { nodes := upsert k v g.nodes, edges := g.edges } := by
    simp [UpdateValue, hw]
  refine ⟨by simp [UpdateValue, hw], ?_, ?_, ?_, by rw [h2]⟩
  · rw [h2]
    simp [Value, lookupKey_upsert_self]
  · intro k' hk'
    rw [h2]
    simp only [Value]
    rw [lookupKey_upsert_ne k k' v g.nodes hk']
  · rw [h2]
    simp only [nodeKeys]
    exact upsert_map_fst_of_mem k v g.nodes
      ((lookupKey_isSome_iff_mem k g.nodes).1 (by simp [hw]))

/-- C10 witness at a concrete graph. -/
theorem updateValue_frame_concrete :
    (UpdateValue gDiamond "a" 42).1 = none ∧
    Value (UpdateValue gDiamond "a" 42).2 "a" = (some 42, none) ∧
    Value (UpdateValue gDiamond "a" 42).2 "b" = Value gDiamond "b" ∧
    nodeKeys (UpdateValue gDiamond "a" 42).2 = nodeKeys gDiamond ∧
    (UpdateValue gDiamond "a" 42).2.edges = gDiamond.edges := by
  have h := updateValue_frame gDiamond "a" 42 (by decide)
  exact ⟨h.1, h.2.1, h.2.2.1 "b" (by decide), h.2.2.2.1, h.2.2.2.2⟩

/-! ### Well-formedness: preservation along the API, and C8 -/

theorem hasEdge_iff {g : DirectedGraph V} {u v : Key} :
    hasEdge g u v = true ↔ ∃ p ∈ lookupE g u, p.2 = true ∧ p.1 = v := by
  simp only [hasEdge, List.any_eq_true, Bool.and_eq_true, decide_eq_true_eq]

theorem lookupE_sub {g : DirectedGraph V} {k : Key} {q : Key × Bool}
    (hq : q ∈ lookupE g k) : ∃ L, lookupKey k g.edges = some L ∧ q ∈ L := by
  unfold lookupE at hq
  cases hL : lookupKey k g.edges with
  | none => rw [hL] at hq; simp at hq
  | some L => rw [hL] at hq; exact ⟨L, rfl, by simpa using hq⟩

theorem WF_lookupE {g : DirectedGraph V} (hwf : WF g) (k : Key) :
    ∀ q ∈ lookupE g k, q.2 = true ∧ q.1 ∈ nodeKeys g := by
  intro q hq
  obtain ⟨L, hL, hm⟩ := lookupE_sub hq
  exact (hwf.2.2.2.2 (k, L) (mem_of_lookupKey hL)).2 q hm

theorem hasEdge_src_mem {g : DirectedGraph V} (hwf : WF g) {u v : Key}
    (h : hasEdge g u v = true) : u ∈ nodeKeys g := by
  obtain ⟨p, hp, _, _⟩ := hasEdge_iff.1 h
  obtain ⟨L, hL, _⟩ := lookupE_sub hp
  exact hwf.2.2.2.1 u (by
    have : (u, L) ∈ g.edges := mem_of_lookupKey hL
    exact List.mem_map_of_mem Prod.fst this)

theorem hasEdge_dst_mem {g : DirectedGraph V} (hwf : WF g) {u v : Key}
    (h : hasEdge g u v = true) : v ∈ nodeKeys g := by
  obtain ⟨p, hp, _, hv⟩ := hasEdge_iff.1 h
  have := (WF_lookupE hwf u p hp).2
  rwa [hv] at this

theorem WF_New : WF (New V) := by
  simp [WF, New, nodeKeys]

theorem WF_NewNode (g : DirectedGraph V) (k : Key) (v : V) (h : WF g) :
    WF (NewNode g k v).2 := by
  by_cases hk : (lookupKey k g.nodes).isSome
  · simpa [NewNode, hk] using h
  · have hk1 : k ∉ g.nodes.map Prod.fst := fun hm =>
      hk ((lookupKey_isSome_iff_mem k g.nodes).2 hm)
    have hk2 : k ∉ g.edges.map Prod.fst := fun hm => hk1 (h.2.2.2.1 k hm)
    have h2 : (NewNode g k v).2 =
        { nodes := g.nodes ++ [(k, v)], edges := g.edges ++ [(k, [])] } := by
      simp [NewNode, hk, upsert_of_not_mem _ _ _ hk1, upsert_of_not_mem _ _ _ hk2]
    rw [h2]
    have app_nodup : ∀ (l : List Key), l.Nodup → k ∉ l → (l ++ [k]).Nodup := by
      intro l hl hkl
      exact (List.perm_append_singleton k l).nodup_iff.2 (List.nodup_cons.2 ⟨hkl, hl⟩)
    refine ⟨?_, ?_, ?_, ?_, ?_⟩
    · show (List.map Prod.fst (g.nodes ++ [(k, v)])).Nodup
      rw [List.map_append]
      exact app_nodup _ h.1 hk1
    · show (List.map Prod.fst (g.edges ++ [(k, [])])).Nodup
      rw [List.map_append]
      exact app_nodup _ h.2.1 hk2
    · intro k' hk'
      simp only [nodeKeys, List.map_append, List.mem_append] at hk' ⊢
      rcases hk' with hk' | hk'
      · exact Or.inl (h.2.2.1 k' hk')
      · exact Or.inr (by simpa using hk')
    · intro k' hk'
      simp only [nodeKeys, List.map_append, List.mem_append] at hk' ⊢
      rcases hk' with hk' | hk'
      · exact Or.inl (h.2.2.2.1 k' hk')
      · exact Or.inr (by simpa using hk')
    · intro e he
      rcases List.mem_append.1 he with he | he
      · obtain ⟨hnd, hq⟩ := h.2.2.2.2 e he
        refine ⟨hnd, fun q hqm => ⟨(hq q hqm).1, ?_⟩⟩
        simp only [nodeKeys, List.map_append, List.mem_append]
        exact Or.inl ((hq q hqm).2)
      · simp at he
        subst he
        simp

theorem WF_NewEdge (g : DirectedGraph V) (a b : Key) (h : WF g) :
    WF (NewEdge g a b).2 := by
  by_cases ha : (lookupKey a g.nodes).isNone
  · simpa [NewEdge, ha] using h
  · by_cases hb : (lookupKey b g.nodes).isNone
    · simpa [NewEdge, ha, hb] using h
    · have haM : a ∈ nodeKeys g := by
        show a ∈ g.nodes.map Prod.fst
        rw [← lookupKey_isSome_iff_mem]
        simpa [Option.isSome_iff_ne_none, Option.isNone_iff_eq_none] using ha
      have hbM : b ∈ nodeKeys g := by
        show b ∈ g.nodes.map Prod.fst
        rw [← lookupKey_isSome_iff_mem]
        simpa [Option.isSome_iff_ne_none, Option.isNone_iff_eq_none] using hb
      have haE : a ∈ g.edges.map Prod.fst := h.2.2.1 a haM
      have h2 : (NewEdge g a b).2 =
          { nodes := g.nodes, edges := upsert a (upsert b true (lookupE g a)) g.edges } := by
        simp [NewEdge, ha, hb]
      rw [h2]
      have hfst : (upsert a (upsert b true (lookupE g a)) g.edges).map Prod.fst
          = g.edges.map Prod.fst := upsert_map_fst_of_mem a _ g.edges haE
      refine ⟨h.1, ?_, ?_, ?_, ?_⟩
      · show (List.map Prod.fst (upsert a (upsert b true (lookupE g a)) g.edges)).Nodup
        rw [hfst]; exact h.2.1
      · intro k' hk'
        show k' ∈ (upsert a (upsert b true (lookupE g a)) g.edges).map Prod.fst
        rw [hfst]; exact h.2.2.1 k' hk'
      · intro k' hk'
        rw [show (({ nodes := g.nodes, edges := upsert a (upsert b true (lookupE g a)) g.edges : DirectedGraph V }).edges.map Prod.fst) = g.edges.map Prod.fst from hfst] at hk'
        exact h.2.2.2.1 k' hk'
      · intro e he
        rcases mem_upsert he with he | he
        · subst he
          have hLprops : ∀ q ∈ lookupE g a, q.2 = true ∧ q.1 ∈ nodeKeys g := WF_lookupE h a
          have hLnd : ((lookupE g a).map Prod.fst).Nodup := by
            unfold lookupE
            cases hL : lookupKey a g.edges with
            | none => simp
            | some L =>
              simpa using (h.2.2.2.2 (a, L) (mem_of_lookupKey hL)).1
          constructor
          · show ((upsert b true (lookupE g a)).map Prod.fst).Nodup
            by_cases hbL : b ∈ (lookupE g a).map Prod.fst
            · rw [upsert_map_fst_of_mem b true _ hbL]; exact hLnd
            · rw [upsert_of_not_mem b true _ hbL, List.map_append]
              exact (List.perm_append_singleton b _).nodup_iff.2 (List.nodup_cons.2 ⟨hbL, hLnd⟩)
          · intro q hq
            rcases mem_upsert hq with hq | hq
            · subst hq
              exact ⟨rfl, hbM⟩
            · exact hLprops q hq
        · exact h.2.2.2.2 e he

theorem WF_UpdateValue (g : DirectedGraph V) (k : Key) (v : V) (h : WF g) :
    WF (UpdateValue g k v).2 := by
  cases hx : lookupKey k g.nodes with
  | none => simpa [UpdateValue, hx] using h
  | some w =>
    have hkM : k ∈ g.nodes.map Prod.fst :=
      (lookupKey_isSome_iff_mem k g.nodes).1 (by simp [hx])
    have h2 : (UpdateValue g k v).2 =
        { nodes := upsert k v g.nodes, edges := g.edges } := by
      simp [UpdateValue, hx]
    rw [h2]
    have hfst : (upsert k v g.nodes).map Prod.fst = g.nodes.map Prod.fst :=
      upsert_map_fst_of_mem k v g.nodes hkM
    have hNK : nodeKeys { nodes := upsert k v g.nodes, edges := g.edges : DirectedGraph V }
        = nodeKeys g := by
      simp only [nodeKeys]
      exact hfst
    refine ⟨?_, h.2.1, ?_, ?_, ?_⟩
    · rw [hNK]; exact h.1
    · intro k' hk'
      rw [hNK] at hk'
      exact h.2.2.1 k' hk'
    · intro k' hk'
      rw [hNK]
      exact h.2.2.2.1 k' hk'
    · intro e he
      obtain ⟨hnd, hq⟩ := h.2.2.2.2 e he
      refine ⟨hnd, fun q hqm => ⟨(hq q hqm).1, ?_⟩⟩
      rw [hNK]
      exact (hq q hqm).2

theorem WF_of_Reachable {g : DirectedGraph V} (h : Reachable g) : WF g := by
  induction h with
  | init => exact WF_New
  | node g k v _ ih => exact WF_NewNode g k v ih
  | edge g a b _ ih => exact WF_NewEdge g a b ih
  | update g k v _ ih => exact WF_UpdateValue g k v ih

/-- C8: on every graph reachable from the empty graph by any sequence of
operations, the adjacency table has an entry for every node key, and every
edge endpoint (source or destination) is present in the node table. -/
theorem reachable_invariant (g : DirectedGraph V) (h : Reachable g) :
    (∀ k ∈ nodeKeys g, k ∈ g.edges.map Prod.fst) ∧
    (∀ u v, hasEdge g u v = true → u ∈ nodeKeys g ∧ v ∈ nodeKeys g) := by
  have hwf := WF_of_Reachable h
  exact ⟨hwf.2.2.1, fun u v huv => ⟨hasEdge_src_mem hwf huv, hasEdge_dst_mem hwf huv⟩⟩

/-- C8 witness: the invariant holds for a concrete reachable graph. -/
theorem reachable_invariant_concrete :
    (∀ k ∈ nodeKeys gStep, k ∈ gStep.edges.map Prod.fst) ∧
    (∀ u v, hasEdge gStep u v = true → u ∈ nodeKeys gStep ∧ v ∈ nodeKeys gStep) :=
  reachable_invariant gStep
    (Reachable.edge _ "a" "b" (Reachable.node _ "b" 2 (Reachable.node _ "a" 1 Reachable.init)))

/-! ### C1: cycle detection -/

theorem merase_cons_self (k : Key) (l : List Key) : merase k (k :: l) = l := by
  simp [merase]

theorem mem_minsert {x k : Key} {l : List Key} (h : x ∈ minsert k l) : x = k ∨ x ∈ l := by
  unfold minsert at h
  by_cases hk : k ∈ l
  · rw [if_pos hk] at h; exact Or.inr h
  · rw [if_neg hk] at h; exact List.mem_cons.1 h

theorem filter_length_mono {p q : Key → Bool} (hpq : ∀ x, p x = true → q x = true) :
    ∀ l : List Key, (l.filter p).length ≤ (l.filter q).length := by
  intro l
  induction l with
  | nil => simp
  | cons a rest ih =>
    by_cases hp : p a = true
    · rw [List.filter_cons_of_pos hp, List.filter_cons_of_pos (hpq a hp)]
      simpa using ih
    · rw [List.filter_cons_of_neg (by simpa using hp)]
      by_cases hq : q a = true
      · rw [List.filter_cons_of_pos hq]
        exact ih.trans (by simp)
      · rw [List.filter_cons_of_neg (by simpa using hq)]
        exact ih

theorem filter_not_mem_cons_lt (k : Key) (rs : List Key) :
    ∀ l : List Key, k ∈ l →  k ∉ rs →
      (l.filter (fun x => decide (x ∉ k :: rs))).length <
      (l.filter (fun x => decide (x ∉ rs))).length := by
  intro l
  induction l with
  | nil => intro h; simp at h
  | cons a rest ih =>
    intro hk hkrs
    have hmono := filter_length_mono (p := fun x => decide (x ∉ k :: rs))
      (q := fun x => decide (x ∉ rs))
      (fun x hx => by
        simp only [decide_eq_true_eq] at hx ⊢
        exact fun hm => hx (List.mem_cons_of_mem _ hm)) rest
    by_cases hak : a = k
    · subst hak
      rw [List.filter_cons_of_neg (by simp), List.filter_cons_of_pos (by simpa using hkrs)]
      simpa using Nat.lt_succ_of_le hmono
    · rcases List.mem_cons.1 hk with h | h
      · exact absurd h.symm hak
      · by_cases har : a ∈ rs
        · rw [List.filter_cons_of_neg (by simp [har]),
            List.filter_cons_of_neg (by simpa using har)]
          exact ih h hkrs
        · rw [List.filter_cons_of_pos (by simp [har, hak]),
            List.filter_cons_of_pos (by simpa using har)]
          simpa using ih h hkrs

theorem unseenCnt_nil (g : DirectedGraph V) : unseenCnt g [] = g.nodes.length := by
  simp [unseenCnt, nodeKeys]

theorem stackChain_mem {g : DirectedGraph V} :
    ∀ (rs : List Key) (key x : Key), stackChain g rs key → x ∈ rs →
      ∃ w, hasEdge g w key = true ∧ Reaches g x w := by
  intro rs
  induction rs with
  | nil => intro key x _ hx; simp at hx
  | cons a rest ih =>
    intro key x hc hx
    obtain ⟨hak, hrest⟩ := hc
    rcases List.mem_cons.1 hx with hx | hx
    · subst hx
      exact ⟨x, hak, Relation.ReflTransGen.refl⟩
    · obtain ⟨w, hw, hr⟩ := ih a x hrest hx
      exact ⟨a, hak, hr.tail hw⟩

theorem dfsFold_restore (child : List Key → List Key → Key → Bool × List Key × List Key)
    (rs0 : List Key)
    (Hr : ∀ s t, (child s rs0 t).1 = false → (child s rs0 t).2.2 = t :: rs0) :
    ∀ (es : List (Key × Bool)) (seen : List Key), (∀ q ∈ es, q.2 = true) →
      (dfsFold child es seen rs0).1 = false → (dfsFold child es seen rs0).2.2 = rs0 := by
  intro es
  induction es with
  | nil => intro seen _ _; simp [dfsFold]
  | cons q rest ih =>
    obtain ⟨t, active⟩ := q
    intro seen hall hres
    have hact : active = true := hall (t, active) (by simp)
    subst hact
    rcases hc : child seen rs0 t with ⟨b, s, r⟩
    cases b with
    | true =>
      simp only [dfsFold, if_true, hc] at hres
      exact absurd hres (by decide)
    | false =>
      have hrs : r = t :: rs0 := by
        have h := Hr seen t
        rw [hc] at h
        exact h rfl
      simp only [dfsFold, if_true, hc] at hres ⊢
      rw [hrs, merase_cons_self] at hres ⊢
      exact ih s (fun q hq => hall q (List.mem_cons_of_mem _ hq)) hres

theorem dfsFold_sound {g : DirectedGraph V}
    (child : List Key → List Key → Key → Bool × List Key × List Key)
    (rs0 : List Key)
    (Hr : ∀ s t, (child s rs0 t).1 = false → (child s rs0 t).2.2 = t :: rs0)
    (Hc : ∀ s t, t ∈ nodeKeys g → stackChain g rs0 t → (child s rs0 t).1 = true →
      CycleExists g) :
    ∀ (es : List (Key × Bool)) (seen : List Key),
      (∀ q ∈ es, q.2 = true ∧ q.1 ∈ nodeKeys g ∧ stackChain g rs0 q.1) →
      (dfsFold child es seen rs0).1 = true → CycleExists g := by
  intro es
  induction es with
  | nil => intro seen _ h; simp [dfsFold] at h
  | cons q rest ih =>
    obtain ⟨t, active⟩ := q
    intro seen hall hres
    obtain ⟨hact, htN, htC⟩ := hall (t, active) (by simp)
    subst hact
    rcases hc : child seen rs0 t with ⟨b, s, r⟩
    cases b with
    | true =>
      apply Hc seen t htN htC
      rw [hc]
    | false =>
      have hrs : r = t :: rs0 := by
        have h := Hr seen t
        rw [hc] at h
        exact h rfl
      simp only [dfsFold, if_true, hc] at hres
      rw [hrs, merase_cons_self] at hres
      exact ih s (fun q hq => hall q (List.mem_cons_of_mem _ hq)) hres

theorem dfsFold_complete {g : DirectedGraph V}
    (child : List Key → List Key → Key → Bool × List Key × List Key)
    (rs0 : List Key)
    (Hr : ∀ s t, (child s rs0 t).1 = false → (child s rs0 t).2.2 = t :: rs0)
    (Hc : ∀ s t, (child s rs0 t).1 = false →
      ¬ CycFrom g t ∧ ∀ u ∈ rs0, ¬ Reaches g t u) :
    ∀ (es : List (Key × Bool)) (seen : List Key), (∀ q ∈ es, q.2 = true) →
      (dfsFold child es seen rs0).1 = false →
      ∀ q ∈ es, ¬ CycFrom g q.1 ∧ ∀ u ∈ rs0, ¬ Reaches g q.1 u := by
  intro es
  induction es with
  | nil => intro seen _ _ q hq; simp at hq
  | cons q0 rest ih =>
    obtain ⟨t, active⟩ := q0
    intro seen hall hres
    have hact : active = true := hall (t, active) (by simp)
    subst hact
    rcases hc : child seen rs0 t with ⟨b, s, r⟩
    cases b with
    | true =>
      simp only [dfsFold, if_true, hc] at hres
      exact absurd hres (by decide)
    | false =>
      have hrs : r = t :: rs0 := by
        have h := Hr seen t
        rw [hc] at h
        exact h rfl
      simp only [dfsFold, if_true, hc] at hres
      rw [hrs, merase_cons_self] at hres
      intro q hq
      rcases List.mem_cons.1 hq with hq | hq
      · subst hq
        have h := Hc seen t
        rw [hc] at h
        exact h rfl
      · exact ih s (fun q' hq' => hall q' (List.mem_cons_of_mem _ hq')) hres q hq

theorem dfsFold_seen {g : DirectedGraph V}
    (child : List Key → List Key → Key → Bool × List Key × List Key)
    (Hc : ∀ s r t, (child s r t).1 = false →
      ∀ x ∈ (child s r t).2.1, x ∈ s ∨ Reaches g t x) :
    ∀ (es : List (Key × Bool)) (seen rs : List Key),
      (dfsFold child es seen rs).1 = false →
      ∀ x ∈ (dfsFold child es seen rs).2.1,
        x ∈ seen ∨ ∃ q ∈ es, q.2 = true ∧ Reaches g q.1 x := by
  intro es
  induction es with
  | nil => intro seen rs _ x hx; exact Or.inl (by simpa [dfsFold] using hx)
  | cons q0 rest ih =>
    obtain ⟨t, active⟩ := q0
    intro seen rs hres x hx
    cases active with
    | false =>
      simp only [dfsFold, Bool.false_eq_true, if_false] at hres hx
      rcases ih seen (merase t rs) hres x hx with h | ⟨q, hq, hqt, hqr⟩
      · exact Or.inl h
      · exact Or.inr ⟨q, List.mem_cons_of_mem _ hq, hqt, hqr⟩
    | true =>
      rcases hc : child seen rs t with ⟨b, s, r⟩
      cases b with
      | true =>
        simp only [dfsFold, if_true, hc] at hres
        exact absurd hres (by decide)
      | false =>
        simp only [dfsFold, if_true, hc] at hres hx
        rcases ih s (merase t r) hres x hx with h | ⟨q, hq, hqt, hqr⟩
        · have h2 := Hc seen rs t
          rw [hc] at h2
          rcases h2 rfl x h with h3 | h3
          · exact Or.inl h3
          · exact Or.inr ⟨(t, true), by simp, rfl, h3⟩
        · exact Or.inr ⟨q, List.mem_cons_of_mem _ hq, hqt, hqr⟩

theorem isCyclicDFS_restore {g : DirectedGraph V} (hwf : WF g) :
    ∀ (fuel : Nat) (seen rs : List Key) (key : Key),
      (isCyclicDFS g fuel seen rs key).1 = false →
      (isCyclicDFS g fuel seen rs key).2.2 = key :: rs := by
  intro fuel
  induction fuel with
  | zero =>
    intro seen rs key h
    simp [isCyclicDFS] at h
  | succ n ih =>
    intro seen rs key h
    by_cases hk : key ∈ rs
    · simp [isCyclicDFS, hk] at h
    · simp only [isCyclicDFS, if_neg hk] at h ⊢
      exact dfsFold_restore _ (key :: rs)
        (fun s t => ih s (key :: rs) t)
        (lookupE g key) (minsert key seen)
        (fun q hq => (WF_lookupE hwf key q hq).1) h

theorem isCyclicDFS_sound {g : DirectedGraph V} (hwf : WF g) :
    ∀ (fuel : Nat) (seen rs : List Key) (key : Key),
      unseenCnt g rs < fuel → key ∈ nodeKeys g → stackChain g rs key →
      (isCyclicDFS g fuel seen rs key).1 = true → CycleExists g := by
  intro fuel
  induction fuel with
  | zero => intro seen rs key hfuel _ _ _; exact absurd hfuel (Nat.not_lt_zero _)
  | succ n ih =>
    intro seen rs key hfuel hkey hchain hres
    by_cases hk : key ∈ rs
    · obtain ⟨w, hw, hr⟩ := stackChain_mem rs key key hchain hk
      exact ⟨w, key, hw, hr⟩
    · simp only [isCyclicDFS, if_neg hk] at hres
      have hmeas : unseenCnt g (key :: rs) < n := by
        have h1 := filter_not_mem_cons_lt key rs (nodeKeys g) hkey hk
        have h2 : unseenCnt g rs < n + 1 := hfuel
        unfold unseenCnt at *
        omega
      apply dfsFold_sound (fun s r k => isCyclicDFS g n s r k) (key :: rs)
        (fun s t => isCyclicDFS_restore hwf n s (key :: rs) t)
        (fun s t htN htC h => ih s (key :: rs) t hmeas htN htC h)
        (lookupE g key) (minsert key seen) ?_ hres
      intro q hq
      obtain ⟨hqt, hqN⟩ := WF_lookupE hwf key q hq
      refine ⟨hqt, hqN, ?_⟩
      show hasEdge g key q.1 = true ∧ stackChain g rs key
      exact ⟨hasEdge_iff.2 ⟨q, hq, hqt, rfl⟩, hchain⟩

theorem isCyclicDFS_complete {g : DirectedGraph V} (hwf : WF g) :
    ∀ (fuel : Nat) (seen rs : List Key) (key : Key),
      (isCyclicDFS g fuel seen rs key).1 = false →
      ¬ CycFrom g key ∧ ∀ u ∈ rs, ¬ Reaches g key u := by
  intro fuel
  induction fuel with
  | zero => intro seen rs key h; simp [isCyclicDFS] at h
  | succ n ih =>
    intro seen rs key hres
    by_cases hk : key ∈ rs
    · simp [isCyclicDFS, hk] at hres
    · simp only [isCyclicDFS, if_neg hk] at hres
      have hfold := dfsFold_complete (fun s r k => isCyclicDFS g n s r k) (key :: rs)
        (fun s t => isCyclicDFS_restore hwf n s (key :: rs) t)
        (fun s t => ih s (key :: rs) t)
        (lookupE g key) (minsert key seen)
        (fun q hq => (WF_lookupE hwf key q hq).1) hres
      constructor
      · rintro ⟨u, v, hku, huv, hvu⟩
        rcases Relation.ReflTransGen.cases_head hku with hke | ⟨w, hkw, hwu⟩
        · subst hke
          obtain ⟨p, hp, hps, hpv⟩ := hasEdge_iff.1 huv
          exact (hfold p hp).2 key (by simp) (by rw [hpv]; exact hvu)
        · obtain ⟨p, hp, hps, hpw⟩ := hasEdge_iff.1 hkw
          exact (hfold p hp).1 ⟨u, v, by rw [hpw]; exact hwu, huv, hvu⟩
      · intro u hu hr
        rcases Relation.ReflTransGen.cases_head hr with hke | ⟨w, hkw, hwu⟩
        · subst hke
          exact hk hu
        · obtain ⟨p, hp, hps, hpw⟩ := hasEdge_iff.1 hkw
          exact (hfold p hp).2 u (List.mem_cons_of_mem _ hu) (by rw [hpw]; exact hwu)

theorem isCyclicDFS_seen {g : DirectedGraph V} :
    ∀ (fuel : Nat) (seen rs : List Key) (key : Key),
      (isCyclicDFS g fuel seen rs key).1 = false →
      ∀ x ∈ (isCyclicDFS g fuel seen rs key).2.1, x ∈ seen ∨ Reaches g key x := by
  intro fuel
  induction fuel with
  | zero => intro seen rs key h; simp [isCyclicDFS] at h
  | succ n ih =>
    intro seen rs key hres x hx
    by_cases hk : key ∈ rs
    · simp [isCyclicDFS, hk] at hres
    · simp only [isCyclicDFS, if_neg hk] at hres hx
      rcases dfsFold_seen (fun s r k => isCyclicDFS g n s r k)
        (fun s r t => ih s r t) (lookupE g key) (minsert key seen) (key :: rs)
        hres x hx with h | ⟨q, hq, hqt, hqr⟩
      · rcases mem_minsert h with h | h
        · exact Or.inr (by rw [h]; exact Relation.ReflTransGen.refl)
        · exact Or.inl h
      · have hke : hasEdge g key q.1 = true := hasEdge_iff.2 ⟨q, hq, hqt, rfl⟩
        exact Or.inr (Relation.ReflTransGen.head hke hqr)

theorem isCyclicGo_true {g : DirectedGraph V} (hwf : WF g) :
    ∀ (rest : List (Key × V)) (seen : List Key),
      (∀ q ∈ rest, q.1 ∈ nodeKeys g) →
      isCyclicGo g (g.nodes.length + 1) rest seen = true → CycleExists g := by
  intro rest
  induction rest with
  | nil => intro seen _ h; simp [isCyclicGo] at h
  | cons q0 rest ih =>
    obtain ⟨key, v⟩ := q0
    intro seen hall hres
    by_cases hk : key ∈ seen
    · simp only [isCyclicGo, if_pos hk] at hres
      exact ih seen (fun q hq => hall q (List.mem_cons_of_mem _ hq)) hres
    · rcases hc : isCyclicDFS g (g.nodes.length + 1) seen [] key with ⟨b, s, r⟩
      cases b with
      | true =>
        refine isCyclicDFS_sound hwf (g.nodes.length + 1) seen [] key ?_
          (hall (key, v) (by simp)) trivial ?_
        · rw [unseenCnt_nil]; omega
        · rw [hc]
      | false =>
        simp only [isCyclicGo, if_neg hk, hc] at hres
        exact ih s (fun q hq => hall q (List.mem_cons_of_mem _ hq)) hres

theorem isCyclicGo_false {g : DirectedGraph V} (hwf : WF g) (fuel : Nat) :
    ∀ (rest : List (Key × V)) (seen : List Key),
      (∀ x ∈ seen, ¬ CycFrom g x) →
      isCyclicGo g fuel rest seen = false →
      ∀ q ∈ rest, ¬ CycFrom g q.1 := by
  intro rest
  induction rest with
  | nil => intro seen _ _ q hq; simp at hq
  | cons q0 rest ih =>
    obtain ⟨key, v⟩ := q0
    intro seen hseen hres q hq
    by_cases hk : key ∈ seen
    · simp only [isCyclicGo, if_pos hk] at hres
      rcases List.mem_cons.1 hq with hq | hq
      · subst hq; exact hseen key hk
      · exact ih seen hseen hres q hq
    · rcases hc : isCyclicDFS g fuel seen [] key with ⟨b, s, r⟩
      cases b with
      | true =>
        simp only [isCyclicGo, if_neg hk, hc] at hres
        exact absurd hres (by decide)
      | false =>
        simp only [isCyclicGo, if_neg hk, hc] at hres
        have hcomp := isCyclicDFS_complete hwf fuel seen [] key (by rw [hc])
        have hseen2 : ∀ x ∈ s, ¬ CycFrom g x := by
          intro x hx
          have hx2 : x ∈ (isCyclicDFS g fuel seen [] key).2.1 := by rw [hc]; exact hx
          rcases isCyclicDFS_seen fuel seen [] key (by rw [hc]) x hx2 with h | h
          · exact hseen x h
          · rintro ⟨u, v', hxu, huv, hvu⟩
            exact hcomp.1 ⟨u, v', h.trans hxu, huv, hvu⟩
        rcases List.mem_cons.1 hq with hq | hq
        · subst hq
          exact hcomp.1
        · exact ih s hseen2 hres q hq

theorem cycle_isCyclic {g : DirectedGraph V} (hwf : WF g) (hcyc : CycleExists g) :
    IsCyclic g = true := by
  cases hb : IsCyclic g with
  | true => rfl
  | false =>
    exfalso
    obtain ⟨u, v, huv, hvu⟩ := hcyc
    have hu : u ∈ nodeKeys g := hasEdge_src_mem hwf huv
    obtain ⟨p, hpmem, hpu⟩ := List.mem_map.1 hu
    have hfalse : isCyclicGo g (g.nodes.length + 1) g.nodes [] = false := hb
    have h := isCyclicGo_false hwf (g.nodes.length + 1) g.nodes [] (by simp) hfalse p hpmem
    rw [hpu] at h
    exact h ⟨u, v, Relation.ReflTransGen.refl, huv, hvu⟩

/-- C1: `IsCyclic` returns true exactly when the graph contains a directed
cycle — a non-empty path from a node back to itself (self-loops and cycles in
disconnected partitions included); in particular it returns false whenever no
cycle exists, e.g. on every graph with zero edges. -/
theorem isCyclic_iff_cycle (g : DirectedGraph V) (hwf : WF g) :
    IsCyclic g = true ↔ CycleExists g := by
  constructor
  · intro h
    exact isCyclicGo_true hwf g.nodes []
      (fun q hq => List.mem_map_of_mem Prod.fst hq) h
  · exact fun hcyc => cycle_isCyclic hwf hcyc

/-- C1 witness: the equivalence applied to the concrete two-node cycle. -/
theorem isCyclic_iff_cycle_concrete : IsCyclic gCyc = true ↔ CycleExists gCyc :=
  isCyclic_iff_cycle gCyc (by decide)

/-! ### C2/C4: topological sort -/

theorem minsert_of_not_mem {k : Key} {l : List Key} (h : k ∉ l) : minsert k l = k :: l := by
  simp [minsert, h]

theorem drop_set_self (l : List Key) (i : Nat) (a : Key) (h : i < l.length) :
    (l.set i a).drop i = a :: l.drop (i + 1) := by
  induction l generalizing i with
  | nil => simp at h
  | cons x rest ih =>
    cases i with
    | zero => rfl
    | succ n =>
      simp only [List.set_cons_succ, List.drop_succ_cons]
      exact ih n (by simpa using h)

theorem drop_set_lt (l : List Key) (i j : Nat) (a : Key) (h : i < j) :
    (l.set i a).drop j = l.drop j := by
  induction l generalizing i j with
  | nil => simp
  | cons x rest ih =>
    cases i with
    | zero =>
      cases j with
      | zero => omega
      | succ m => simp [List.set]
    | succ n =>
      cases j with
      | zero => omega
      | succ m =>
        simp only [List.set_cons_succ, List.drop_succ_cons]
        exact ih n m (by omega)

theorem mem_drop_of_le {x : Key} {l : List Key} {i j : Nat} (hij : i ≤ j)
    (h : x ∈ l.drop j) : x ∈ l.drop i := by
  have heq : l.drop j = (l.drop i).drop (j - i) := by
    rw [List.drop_drop]
    congr 1
    omega
  rw [heq] at h
  exact (List.drop_sublist _ _).subset h

theorem drop_eq_of_le {l₁ l₂ : List Key} {i j : Nat} (hij : i ≤ j)
    (h : l₁.drop i = l₂.drop i) : l₁.drop j = l₂.drop j := by
  have h1 : l₁.drop j = (l₁.drop i).drop (j - i) := by rw [List.drop_drop]; congr 1; omega
  have h2 : l₂.drop j = (l₂.drop i).drop (j - i) := by rw [List.drop_drop]; congr 1; omega
  rw [h1, h2, h]

theorem nodup_subset_length {l₁ l₂ : List Key} (hnd : l₁.Nodup) (hsub : l₁ ⊆ l₂) :
    l₁.length ≤ l₂.length := (hnd.subperm hsub).length_le

theorem unseenCnt_mono {g : DirectedGraph V} {s₁ s₂ : List Key} (h : ∀ x ∈ s₁, x ∈ s₂) :
    unseenCnt g s₂ ≤ unseenCnt g s₁ := by
  unfold unseenCnt
  apply filter_length_mono
  intro x hx
  simp only [decide_eq_true_eq] at hx ⊢
  exact fun hm => hx (h x hm)

theorem unseenCnt_cons_lt {g : DirectedGraph V} {seen : List Key} {key : Key}
    (hk : key ∈ nodeKeys g) (hns : key ∉ seen) :
    unseenCnt g (key :: seen) < unseenCnt g seen :=
  filter_not_mem_cons_lt key seen (nodeKeys g) hk hns

theorem topSortFold_main {g : DirectedGraph V} (hwf : WF g) (fuel : Nat) (key : Key) (p : List Key)
    (Hchild : ∀ (seen order : List Key) (i : Nat) (t : Key),
      unseenCnt g seen < fuel →
      t ∈ nodeKeys g → t ∉ seen →
      (∀ x ∈ seen, x ∈ nodeKeys g) → seen.Nodup →
      seen.Perm (order.drop (i + 1) ++ (key :: p)) →
      seen.length + i + 1 = order.length + (key :: p).length →
      order.length = (nodeKeys g).length →
      stackChain g (key :: p) t →
      ∃ s o iW,
        topSortDFS g fuel seen order i t = (s, o, iW - 1) ∧ iW ≤ i ∧
        t ∈ s ∧ (∀ x ∈ seen, x ∈ s) ∧ (∀ x ∈ s, x ∈ nodeKeys g) ∧ s.Nodup ∧
        o.length = order.length ∧ o.drop (i + 1) = order.drop (i + 1) ∧
        s.Perm (o.drop iW ++ (key :: p)) ∧
        s.length + iW = order.length + (key :: p).length ∧
        (¬ CycleExists g → validSeq g (order.drop (i + 1)) → validSeq g (o.drop iW))) :
    ∀ (es : List (Key × Bool)) (seen order : List Key) (i : Nat),
      (∀ q ∈ es, q ∈ lookupE g key) →
      key ∈ seen → key ∈ nodeKeys g →
      unseenCnt g seen < fuel →
      (∀ x ∈ seen, x ∈ nodeKeys g) → seen.Nodup →
      seen.Perm (order.drop (i + 1) ++ (key :: p)) →
      seen.length + i + 1 = order.length + (key :: p).length →
      order.length = (nodeKeys g).length →
      stackChain g p key →
      (¬ CycleExists g → ∀ q ∈ lookupE g key, q ∉ es → q.1 ∈ order.drop (i + 1)) →
      ∃ s o iF,
        topSortFold (fun s' o' j k => topSortDFS g fuel s' o' j k) es seen order i = (s, o, iF) ∧
        iF ≤ i ∧
        key ∈ s ∧ (∀ x ∈ seen, x ∈ s) ∧ (∀ x ∈ s, x ∈ nodeKeys g) ∧ s.Nodup ∧
        o.length = order.length ∧ o.drop (i + 1) = order.drop (i + 1) ∧
        s.Perm (o.drop (iF + 1) ++ (key :: p)) ∧
        s.length + iF + 1 = order.length + (key :: p).length ∧
        (¬ CycleExists g → validSeq g (order.drop (i + 1)) → validSeq g (o.drop (iF + 1))) ∧
        (¬ CycleExists g → ∀ q ∈ lookupE g key, q.1 ∈ o.drop (iF + 1)) := by
  intro es
  induction es with
  | nil =>
    intro seen order i hsub hkeyseen hkeyNK hfuel hseenNK hnd hperm harith hlen hchain hdone
    refine ⟨seen, order, i, by simp [topSortFold], le_refl i, hkeyseen, fun x hx => hx,
      hseenNK, hnd, rfl, rfl, hperm, harith, fun _ hv => hv, ?_⟩
    intro hacyc q hq
    exact hdone hacyc q hq (by simp)
  | cons q0 rest ih =>
    obtain ⟨t, bE⟩ := q0
    intro seen order i hsub hkeyseen hkeyNK hfuel hseenNK hnd hperm harith hlen hchain hdone
    have hq0mem : (t, bE) ∈ lookupE g key := hsub (t, bE) (by simp)
    have hq0true : bE = true := (WF_lookupE hwf key (t, bE) hq0mem).1
    have htNK : t ∈ nodeKeys g := (WF_lookupE hwf key (t, bE) hq0mem).2
    have hkeyt : hasEdge g key t = true := hasEdge_iff.2 ⟨(t, bE), hq0mem, hq0true, rfl⟩
    have hpseen : ∀ x ∈ p, x ∈ seen := fun x hx =>
      hperm.mem_iff.2 (List.mem_append_right _ (List.mem_cons_of_mem _ hx))
    by_cases ht : t ∈ seen
    · have hstep : topSortFold (fun s' o' j k => topSortDFS g fuel s' o' j k)
          ((t, bE) :: rest) seen order i =
          topSortFold (fun s' o' j k => topSortDFS g fuel s' o' j k) rest seen order i := by
        simp [topSortFold, ht]
      have hdone2 : ¬ CycleExists g → ∀ q ∈ lookupE g key, q ∉ rest →
          q.1 ∈ order.drop (i + 1) := by
        intro hacyc q hq hqr
        by_cases hqq : q = (t, bE)
        · subst hqq
          rcases List.mem_append.1 (hperm.mem_iff.1 ht) with h | h
          · exact h
          · exfalso
            rcases List.mem_cons.1 h with h | h
            · exact hacyc ⟨key, t, hkeyt, by rw [h]; exact Relation.ReflTransGen.refl⟩
            · obtain ⟨w, hw, hr⟩ := stackChain_mem p key t hchain h
              exact hacyc ⟨w, key, hw, Relation.ReflTransGen.head hkeyt hr⟩
        · exact hdone hacyc q hq
            (fun hin => (List.mem_cons.1 hin).elim (fun he => hqq he) hqr)
      obtain ⟨s, o, iF, heq, hrest⟩ := ih seen order i
        (fun q hq => hsub q (List.mem_cons_of_mem _ hq)) hkeyseen hkeyNK hfuel hseenNK hnd
        hperm harith hlen hchain hdone2
      exact ⟨s, o, iF, by rw [hstep, heq], hrest⟩
    · obtain ⟨s, o, iW, heqD, hiW, htS, hsubS, hsNK, hndS, holen, hframe, hpermS, harithS,
        hvalidS⟩ :=
        Hchild seen order i t hfuel htNK ht hseenNK hnd hperm harith hlen
          (show hasEdge g key t = true ∧ stackChain g p key from ⟨hkeyt, hchain⟩)
      have hslen : s.length ≤ order.length := by
        rw [hlen]; exact nodup_subset_length hndS hsNK
      have hplen : (key :: p).length ≤ s.length := by
        have h := hpermS.length_eq
        simp only [List.length_append] at h
        omega
      have hiW1 : 1 ≤ iW := by
        simp only [List.length_cons] at harithS hplen
        omega
      have hiWi : iW - 1 + 1 = iW := by omega
      have hdone3 : ¬ CycleExists g → ∀ q ∈ lookupE g key, q ∉ rest →
          q.1 ∈ o.drop (iW - 1 + 1) := by
        intro hacyc q hq hqr
        rw [hiWi]
        by_cases hqq : q = (t, bE)
        · subst hqq
          rcases List.mem_append.1 (hpermS.mem_iff.1 htS) with h | h
          · exact h
          · exfalso
            rcases List.mem_cons.1 h with h | h
            · exact ht (by rw [h]; exact hkeyseen)
            · exact ht (hpseen t h)
        · have h1 : q.1 ∈ order.drop (i + 1) := hdone hacyc q hq
            (fun hin => (List.mem_cons.1 hin).elim (fun he => hqq he) hqr)
          have h2 : q.1 ∈ o.drop (i + 1) := by rw [hframe]; exact h1
          exact mem_drop_of_le (by omega) h2
      obtain ⟨s₂, o₂, iF, heqF, hiF, hkeyS₂, hsubS₂, hsNK₂, hndS₂, holen₂, hframe₂, hperm₂,
        harith₂, hvalid₂, hsucc₂⟩ :=
        ih s o (iW - 1)
          (fun q hq => hsub q (List.mem_cons_of_mem _ hq))
          (hsubS key hkeyseen) hkeyNK
          (lt_of_le_of_lt (unseenCnt_mono hsubS) hfuel)
          hsNK hndS
          (by rw [hiWi]; exact hpermS)
          (by simp only [List.length_cons] at harithS ⊢; omega)
          (by rw [holen]; exact hlen)
          hchain
          hdone3
      have hstep : topSortFold (fun s' o' j k => topSortDFS g fuel s' o' j k)
          ((t, bE) :: rest) seen order i =
          topSortFold (fun s' o' j k => topSortDFS g fuel s' o' j k) rest s o (iW - 1) := by
        simp only [topSortFold, if_neg ht, heqD]
      have hframe₂' : o₂.drop (iW) = o.drop (iW) := by
        rw [← hiWi]
        exact hframe₂
      refine ⟨s₂, o₂, iF, by rw [hstep, heqF], by omega, hkeyS₂,
        (fun x hx => hsubS₂ x (hsubS x hx)), hsNK₂, hndS₂, by rw [holen₂, holen], ?_,
        hperm₂, by rw [holen] at harith₂; exact harith₂, ?_, hsucc₂⟩
      · have h1 : o₂.drop (i + 1) = o.drop (i + 1) := drop_eq_of_le (by omega) hframe₂'
        rw [h1, hframe]
      · intro hacyc hvalid0
        refine hvalid₂ hacyc ?_
        rw [hiWi]
        exact hvalidS hacyc hvalid0

theorem topSortDFS_succ (g : DirectedGraph V) (n : Nat) (seen order : List Key) (i : Nat)
    (key : Key) :
    topSortDFS g (n + 1) seen order i key =
      match topSortFold (fun s o j k => topSortDFS g n s o j k) (lookupE g key)
          (minsert key seen) order i with
      | (s, o, j) => (s, o.set j key, j - 1) := rfl

theorem topSortDFS_main {g : DirectedGraph V} (hwf : WF g) :
    ∀ (fuel : Nat) (seen order : List Key) (i : Nat) (key : Key) (p : List Key),
      unseenCnt g seen < fuel →
      key ∈ nodeKeys g → key ∉ seen →
      (∀ x ∈ seen, x ∈ nodeKeys g) → seen.Nodup →
      seen.Perm (order.drop (i + 1) ++ p) →
      seen.length + i + 1 = order.length + p.length →
      order.length = (nodeKeys g).length →
      stackChain g p key →
      ∃ s o iW,
        topSortDFS g fuel seen order i key = (s, o, iW - 1) ∧ iW ≤ i ∧
        key ∈ s ∧ (∀ x ∈ seen, x ∈ s) ∧ (∀ x ∈ s, x ∈ nodeKeys g) ∧ s.Nodup ∧
        o.length = order.length ∧ o.drop (i + 1) = order.drop (i + 1) ∧
        s.Perm (o.drop iW ++ p) ∧
        s.length + iW = order.length + p.length ∧
        (¬ CycleExists g → validSeq g (order.drop (i + 1)) → validSeq g (o.drop iW)) := by
  intro fuel
  induction fuel with
  | zero => intro seen order i key p hfuel; exact absurd hfuel (Nat.not_lt_zero _)
  | succ n ih =>
    intro seen order i key p hfuel hkNK hkseen hseenNK hnd hperm harith hlen hchain
    have hmins : minsert key seen = key :: seen := minsert_of_not_mem hkseen
    have hfuel2 : unseenCnt g (key :: seen) < n := by
      have := unseenCnt_cons_lt hkNK hkseen
      omega
    have hperm2 : (key :: seen).Perm (order.drop (i + 1) ++ (key :: p)) :=
      (hperm.cons key).trans List.perm_middle.symm
    have hfold := topSortFold_main hwf n key p (fun s' o' i' t => ih s' o' i' t (key :: p))
      (lookupE g key) (key :: seen) order i
      (fun q hq => hq)
      (by simp) hkNK hfuel2
      (by
        intro x hx
        rcases List.mem_cons.1 hx with h | h
        · rw [h]; exact hkNK
        · exact hseenNK x h)
      (List.nodup_cons.2 ⟨hkseen, hnd⟩)
      hperm2
      (by simp only [List.length_cons]; omega)
      hlen hchain
      (fun _ q hq hq' => absurd hq hq')
    obtain ⟨s, o, iF, heqF, hiF, hkS, hsubS, hsNK, hndS, holen, hframe, hpermS, harithS,
      hvalidS, hsuccS⟩ := hfold
    have hslen : s.length ≤ order.length := by
      rw [hlen]; exact nodup_subset_length hndS hsNK
    have hplen : (key :: p).length ≤ s.length := by
      have h := hpermS.length_eq
      simp only [List.length_append] at h
      omega
    have hiFlt : iF < o.length := by
      rw [holen]
      simp only [List.length_cons] at harithS hplen
      omega
    refine ⟨s, o.set iF key, iF, ?_, hiF, hkS,
      (fun x hx => hsubS x (List.mem_cons_of_mem _ hx)), hsNK, hndS, ?_, ?_, ?_, ?_, ?_⟩
    · rw [topSortDFS_succ, hmins, heqF]
    · rw [List.length_set]; exact holen
    · rw [drop_set_lt o iF (i + 1) key (by omega)]
      exact hframe
    · rw [drop_set_self o iF key hiFlt]
      exact hpermS.trans List.perm_middle
    · simp only [List.length_cons] at harithS
      omega
    · intro hacyc hvalid0
      rw [drop_set_self o iF key hiFlt]
      show (∀ v, hasEdge g key v = true → v ∈ o.drop (iF + 1)) ∧ validSeq g (o.drop (iF + 1))
      constructor
      · intro v hv
        obtain ⟨q, hq, hqt, hqv⟩ := hasEdge_iff.1 hv
        have h := hsuccS hacyc q hq
        rwa [hqv] at h
      · exact hvalidS hacyc hvalid0

theorem nodup_subset_full_perm {l₁ l₂ : List Key} (h₁ : l₁.Nodup) (hsub : l₁ ⊆ l₂)
    (hlen : l₂.length ≤ l₁.length) : List.Perm l₁ l₂ :=
  (h₁.subperm hsub).perm_of_length_le hlen

theorem topSortGo_main {g : DirectedGraph V} (hwf : WF g) (fuel : Nat) :
    ∀ (rest : List (Key × V)) (seen order : List Key) (i : Nat),
      (∀ q ∈ rest, q ∈ g.nodes) →
      (∀ q ∈ g.nodes, q.1 ∈ seen ∨ q ∈ rest) →
      (((∀ x ∈ seen, x ∈ nodeKeys g) ∧ seen.Nodup ∧
        seen.Perm (order.drop (i + 1)) ∧
        seen.length + i + 1 = order.length ∧
        order.length = (nodeKeys g).length ∧
        unseenCnt g seen < fuel ∧
        (¬ CycleExists g → validSeq g (order.drop (i + 1)))) ∨
       ((∀ k ∈ nodeKeys g, k ∈ seen) ∧
        List.Perm order (nodeKeys g) ∧
        (¬ CycleExists g → validSeq g order))) →
      List.Perm (topSortGo g fuel rest seen order i) (nodeKeys g) ∧
      (¬ CycleExists g → validSeq g (topSortGo g fuel rest seen order i)) := by
  intro rest
  induction rest with
  | nil =>
    intro seen order i hrest hcover hstate
    rcases hstate with ⟨hsub, hnd, hperm, harith, hlen, hfuel, hvalid⟩ | ⟨hall, hperm, hvalid⟩
    · exfalso
      have hNKsub : ∀ k ∈ nodeKeys g, k ∈ seen := by
        intro k hk
        obtain ⟨q, hqmem, hq1⟩ := List.mem_map.1 hk
        rcases hcover q hqmem with h | h
        · rw [← hq1]; exact h
        · simp at h
      have h1 : (nodeKeys g).length ≤ seen.length := nodup_subset_length hwf.1 hNKsub
      have h2 : seen.length ≤ (nodeKeys g).length := nodup_subset_length hnd hsub
      omega
    · exact ⟨by simp only [topSortGo]; exact hperm, by simp only [topSortGo]; exact hvalid⟩
  | cons q0 rest ih =>
    obtain ⟨key, v⟩ := q0
    intro seen order i hrest hcover hstate
    have hq0 : (key, v) ∈ g.nodes := hrest (key, v) (by simp)
    have hkeyNK : key ∈ nodeKeys g := List.mem_map_of_mem Prod.fst hq0
    by_cases hk : key ∈ seen
    · have hstep : topSortGo g fuel ((key, v) :: rest) seen order i =
          topSortGo g fuel rest seen order i := by
        simp [topSortGo, hk]
      rw [hstep]
      apply ih seen order i (fun q hq => hrest q (List.mem_cons_of_mem _ hq)) ?_ hstate
      intro q hq
      rcases hcover q hq with h | h
      · exact Or.inl h
      · rcases List.mem_cons.1 h with h | h
        · rw [h]; exact Or.inl hk
        · exact Or.inr h
    · rcases hstate with ⟨hsub, hnd, hperm, harith, hlen, hfuel, hvalid⟩ |
        ⟨hall, hpermB, hvalidB⟩
      swap
      · exact absurd (hall key hkeyNK) hk
      obtain ⟨s, o, iW, heqD, hiW, hkS, hsubS, hsNK, hndS, holen, hframe, hpermS, harithS,
        hvalidS⟩ :=
        topSortDFS_main hwf fuel seen order i key [] hfuel hkeyNK hk hsub hnd
          (by simpa using hperm) (by simpa using harith) hlen trivial
      have hstep : topSortGo g fuel ((key, v) :: rest) seen order i =
          topSortGo g fuel rest s o (iW - 1) := by
        simp only [topSortGo, if_neg hk, heqD]
      rw [hstep]
      have hsNKlen : s.length ≤ (nodeKeys g).length := nodup_subset_length hndS hsNK
      have hpermS' : List.Perm s (o.drop iW) := by simpa using hpermS
      have harithS' : s.length + iW = order.length := by simpa using harithS
      have hcover2 : ∀ q ∈ g.nodes, q.1 ∈ s ∨ q ∈ rest := by
        intro q hq
        rcases hcover q hq with h | h
        · exact Or.inl (hsubS _ h)
        · rcases List.mem_cons.1 h with h | h
          · rw [h]; exact Or.inl hkS
          · exact Or.inr h
      have hrest2 : ∀ q ∈ rest, q ∈ g.nodes := fun q hq => hrest q (List.mem_cons_of_mem _ hq)
      by_cases hfull : s.length = (nodeKeys g).length
      · have hsperm : List.Perm s (nodeKeys g) := nodup_subset_full_perm hndS hsNK (by omega)
        have hiW0 : iW = 0 := by omega
        rw [hiW0] at hpermS'
        simp only [List.drop_zero] at hpermS'
        apply ih s o (iW - 1) hrest2 hcover2
        refine Or.inr ⟨fun k hk' => hsperm.mem_iff.2 hk', hpermS'.symm.trans hsperm, ?_⟩
        intro hacyc
        have h := hvalidS hacyc (hvalid hacyc)
        rw [hiW0] at h
        simpa using h
      · have hiW1 : 1 ≤ iW := by omega
        apply ih s o (iW - 1) hrest2 hcover2
        refine Or.inl ⟨hsNK, hndS, ?_, ?_, by rw [holen]; exact hlen,
          lt_of_le_of_lt (unseenCnt_mono hsubS) hfuel, ?_⟩
        · have h : iW - 1 + 1 = iW := by omega
          rw [h]
          exact hpermS'
        · rw [holen]
          omega
        · intro hacyc
          have h : iW - 1 + 1 = iW := by omega
          rw [h]
          exact hvalidS hacyc (hvalid hacyc)

theorem topSort_perm_valid {g : DirectedGraph V} (hwf : WF g) :
    List.Perm (TopSort g) (nodeKeys g) ∧
    (¬ CycleExists g → validSeq g (TopSort g)) := by
  cases hn : g.nodes with
  | nil =>
    have h1 : TopSort g = [] := by
      simp [TopSort, hn, topSortGo]
    have h2 : nodeKeys g = [] := by
      simp [nodeKeys, hn]
    rw [h1, h2]
    exact ⟨List.Perm.refl [], fun _ => trivial⟩
  | cons q0 tl =>
    have hlen1 : 1 ≤ g.nodes.length := by rw [hn]; simp
    have hlenNK : (nodeKeys g).length = g.nodes.length := by
      simp [nodeKeys]
    have h := topSortGo_main hwf (g.nodes.length + 1) g.nodes []
      (List.replicate g.nodes.length "") (g.nodes.length - 1)
      (fun q hq => hq) (fun q hq => Or.inr hq) ?_
    · exact h
    · refine Or.inl ⟨by simp, List.nodup_nil, ?_, ?_, ?_, ?_, ?_⟩
      · have hd : (List.replicate g.nodes.length ("":Key)).drop (g.nodes.length - 1 + 1) = [] := by
          apply List.drop_eq_nil_of_le
          simp
          omega
        rw [hd]
      · simp only [List.length_nil, List.length_replicate]
        omega
      · rw [List.length_replicate, hlenNK]
      · unfold unseenCnt
        have h := (nodeKeys g).length_filter_le (fun k => decide (k ∉ ([] : List Key)))
        omega
      · intro _
        have hd : (List.replicate g.nodes.length ("":Key)).drop (g.nodes.length - 1 + 1) = [] := by
          apply List.drop_eq_nil_of_le
          simp
          omega
        rw [hd]
        trivial

theorem validSeq_pos {g : DirectedGraph V} :
    ∀ (l : List Key) (u v : Key), validSeq g l → l.Nodup → u ∈ l →
      hasEdge g u v = true → v ∈ l ∧ posOf u l < posOf v l := by
  intro l
  induction l with
  | nil => intro u v _ _ hu _; simp at hu
  | cons a rest ih =>
    intro u v hvalid hnd hu huv
    have hhead : ∀ w, hasEdge g a w = true → w ∈ rest := hvalid.1
    have hrest : validSeq g rest := hvalid.2
    have hand := List.nodup_cons.1 hnd
    by_cases hua : a = u
    · subst hua
      have hv : v ∈ rest := hhead v huv
      have hvne : ¬ a = v := fun h => hand.1 (h ▸ hv)
      refine ⟨List.mem_cons_of_mem _ hv, ?_⟩
      simp only [posOf, if_pos rfl, if_neg hvne, if_true]
      omega
    · have hu' : u ∈ rest := (List.mem_cons.1 hu).elim (fun h => absurd h.symm hua) id
      obtain ⟨hv, hlt⟩ := ih u v hrest hand.2 hu' huv
      have hvne : ¬ a = v := fun h => hand.1 (h ▸ hv)
      refine ⟨List.mem_cons_of_mem _ hv, ?_⟩
      simp only [posOf, if_neg hua, if_neg hvne]
      omega

/-- C4: for every well-formed graph, cyclic or not, `TopSort` returns a
sequence containing every node key exactly once, of length equal to the number
of nodes. -/
theorem topSort_complete (g : DirectedGraph V) (hwf : WF g) :
    (∀ k ∈ nodeKeys g, (TopSort g).count k = 1) ∧
    (TopSort g).length = g.nodes.length := by
  obtain ⟨hperm, _⟩ := topSort_perm_valid hwf
  constructor
  · intro k hk
    rw [hperm.count_eq]
    exact List.count_eq_one_of_mem hwf.1 hk
  · rw [hperm.length_eq]
    simp [nodeKeys]

/-- C4 witness: applied to a concrete cyclic graph. -/
theorem topSort_complete_concrete :
    (∀ k ∈ nodeKeys gCyc, (TopSort gCyc).count k = 1) ∧
    (TopSort gCyc).length = gCyc.nodes.length :=
  topSort_complete gCyc (by decide)

/-- C2: on every acyclic well-formed graph, `TopSort` returns a valid
topological order: for every edge (u, v), u appears at a strictly earlier
position than v in the returned sequence. -/
theorem topSort_topological (g : DirectedGraph V) (hwf : WF g)
    (hacyc : ¬ CycleExists g) :
    ∀ u v, hasEdge g u v = true →
      posOf u (TopSort g) < posOf v (TopSort g) := by
  obtain ⟨hperm, hvalid⟩ := topSort_perm_valid hwf
  intro u v huv
  have hnd : (TopSort g).Nodup := hperm.nodup_iff.2 hwf.1
  have hu : u ∈ TopSort g := hperm.mem_iff.2 (hasEdge_src_mem hwf huv)
  exact (validSeq_pos (TopSort g) u v (hvalid hacyc) hnd hu huv).2

/-- C2 witness: applied to the concrete acyclic diamond graph and edge a→b. -/
theorem topSort_topological_concrete :
    posOf "a" (TopSort gDiamond) < posOf "b" (TopSort gDiamond) :=
  topSort_topological gDiamond (by decide)
    (fun h => absurd (cycle_isCyclic (by decide) h) (by decide))
    "a" "b" (by decide)

/-! ### C3: the traversal re-explores seen nodes, but clears marks exactly at
subtree completion -/

theorem tdfsFold_agree (child : List Key → List Key → Key → Bool × List Key × List Key)
    (tchild : List Key → List Key → Key → Bool × List Key × List Key × List DFSEvent)
    (key : Key)
    (Hag : ∀ s r t, (tchild s r t).1 = (child s r t).1 ∧
      (tchild s r t).2.1 = (child s r t).2.1 ∧ (tchild s r t).2.2.1 = (child s r t).2.2) :
    ∀ (es : List (Key × Bool)) (seen rs : List Key),
      (tdfsFold tchild key es seen rs).1 = (dfsFold child es seen rs).1 ∧
      (tdfsFold tchild key es seen rs).2.1 = (dfsFold child es seen rs).2.1 ∧
      (tdfsFold tchild key es seen rs).2.2.1 = (dfsFold child es seen rs).2.2 := by
  intro es
  induction es with
  | nil => intro seen rs; exact ⟨rfl, rfl, rfl⟩
  | cons q0 rest ih =>
    obtain ⟨t, active⟩ := q0
    intro seen rs
    cases active with
    | false =>
      simp only [tdfsFold, dfsFold, Bool.false_eq_true, if_false]
      rcases hf : tdfsFold tchild key rest seen (merase t rs) with ⟨b', s', r', ev'⟩
      have h := ih seen (merase t rs)
      rw [hf] at h
      exact h
    | true =>
      rcases hct : tchild seen rs t with ⟨b', s', r', ev'⟩
      rcases hcc : child seen rs t with ⟨b, s, r⟩
      have hag := Hag seen rs t
      rw [hct, hcc] at hag
      obtain ⟨hb, hs, hr⟩ := hag
      simp only at hb hs hr
      rw [← hb, ← hs, ← hr] at hcc
      cases b' with
      | true =>
        simp [tdfsFold, dfsFold, hct, hcc]
      | false =>
        simp only [tdfsFold, dfsFold, if_true, hct, hcc]
        rcases hf : tdfsFold tchild key rest s' (merase t r') with ⟨b2, s2, r2, ev2⟩
        have h := ih s' (merase t r')
        rw [hf] at h
        exact h

theorem tdfsA_agree (g : DirectedGraph V) :
    ∀ (fuel : Nat) (seen rs : List Key) (key : Key),
      (tdfsA g fuel seen rs key).1 = (isCyclicDFS g fuel seen rs key).1 ∧
      (tdfsA g fuel seen rs key).2.1 = (isCyclicDFS g fuel seen rs key).2.1 ∧
      (tdfsA g fuel seen rs key).2.2.1 = (isCyclicDFS g fuel seen rs key).2.2 := by
  intro fuel
  induction fuel with
  | zero => intro seen rs key; exact ⟨rfl, rfl, rfl⟩
  | succ n ih =>
    intro seen rs key
    by_cases hk : key ∈ rs
    · simp [tdfsA, isCyclicDFS, hk]
    · simp only [tdfsA, isCyclicDFS, if_neg hk]
      rcases hf : tdfsFold (fun s r k => tdfsA g n s r k) key (lookupE g key)
          (minsert key seen) (key :: rs) with ⟨b2, s2, r2, ev2⟩
      have h := tdfsFold_agree (fun s r k => isCyclicDFS g n s r k)
        (fun s r k => tdfsA g n s r k) key (fun s r t => ih s r t)
        (lookupE g key) (minsert key seen) (key :: rs)
      rw [hf] at h
      exact h

theorem tIsCyclicGo_agree (g : DirectedGraph V) (fuel : Nat) :
    ∀ (rest : List (Key × V)) (seen : List Key),
      (tIsCyclicGo g fuel rest seen).1 = isCyclicGo g fuel rest seen := by
  intro rest
  induction rest with
  | nil => intro seen; rfl
  | cons q0 rest ih =>
    obtain ⟨key, v⟩ := q0
    intro seen
    by_cases hk : key ∈ seen
    · simp only [tIsCyclicGo, isCyclicGo, if_pos hk]
      exact ih seen
    · rcases hct : tdfsA g fuel seen [] key with ⟨b', s', r', ev'⟩
      rcases hcc : isCyclicDFS g fuel seen [] key with ⟨b, s, r⟩
      have hag := tdfsA_agree g fuel seen [] key
      rw [hct, hcc] at hag
      obtain ⟨hb, hs, hr⟩ := hag
      simp only at hb hs hr
      rw [← hb, ← hs, ← hr] at hcc
      cases b' with
      | true => simp [tIsCyclicGo, isCyclicGo, if_neg hk, hct, hcc]
      | false =>
        simp only [tIsCyclicGo, isCyclicGo, if_neg hk, hct, hcc]
        rcases hf : tIsCyclicGo g fuel rest s' with ⟨b2, ev2⟩
        have h := ih s'
        rw [hf] at h
        exact h

theorem lastEv_append (d : DFSEvent) (l₁ l₂ : List DFSEvent) :
    lastEv d (l₁ ++ l₂) = lastEv (lastEv d l₁) l₂ := by
  induction l₁ generalizing d with
  | nil => rfl
  | cons e rest ih => exact ih e

theorem pairsOKFrom_append (pv : DFSEvent) (l₁ l₂ : List DFSEvent) :
    pairsOKFrom pv (l₁ ++ l₂) = (pairsOKFrom pv l₁ && pairsOKFrom (lastEv pv l₁) l₂) := by
  induction l₁ generalizing pv with
  | nil => simp [pairsOKFrom, lastEv]
  | cons e rest ih =>
    show (clearCheck pv e && pairsOKFrom e (rest ++ l₂)) = _
    rw [ih e]
    show _ = ((clearCheck pv e && pairsOKFrom e rest) && pairsOKFrom (lastEv e rest) l₂)
    rw [Bool.and_assoc]

theorem tdfsFold_trace
    (tchild : List Key → List Key → Key → Bool × List Key × List Key × List DFSEvent)
    (key : Key)
    (H1 : ∀ s r t pv, pairsOKFrom pv (tchild s r t).2.2.2 = true)
    (H2 : ∀ s r t, (tchild s r t).1 = false →
      ∀ d, lastEv d (tchild s r t).2.2.2 = DFSEvent.exit t) :
    ∀ (es : List (Key × Bool)) (seen rs : List Key), (∀ q ∈ es, q.2 = true) →
      (∀ pv, pairsOKFrom pv (tdfsFold tchild key es seen rs).2.2.2 = true) ∧
      ((tdfsFold tchild key es seen rs).1 = false →
        ∀ d, lastEv d (tdfsFold tchild key es seen rs).2.2.2 = DFSEvent.exit key) := by
  intro es
  induction es with
  | nil =>
    intro seen rs _
    exact ⟨fun pv => rfl, fun _ d => rfl⟩
  | cons q0 rest ih =>
    obtain ⟨t, active⟩ := q0
    intro seen rs hall
    have hact : active = true := hall (t, active) (by simp)
    subst hact
    rcases hct : tchild seen rs t with ⟨b', s', r', ev'⟩
    cases b' with
    | true =>
      simp only [tdfsFold, if_true, hct]
      refine ⟨fun pv => ?_, fun hfalse => absurd hfalse (by simp)⟩
      have h := H1 seen rs t pv
      rw [hct] at h
      exact h
    | false =>
      have hlast : ∀ d, lastEv d ev' = DFSEvent.exit t := by
        intro d
        have h := H2 seen rs t
        rw [hct] at h
        exact h rfl d
      have hpv : ∀ pv, pairsOKFrom pv ev' = true := by
        intro pv
        have h := H1 seen rs t pv
        rw [hct] at h
        exact h
      rcases hf : tdfsFold tchild key rest s' (merase t r') with ⟨b2, s2, r2, ev2⟩
      have hih := ih s' (merase t r') (fun q hq => hall q (List.mem_cons_of_mem _ hq))
      rw [hf] at hih
      simp only [tdfsFold, if_true, hct, hf]
      constructor
      · intro pv
        rw [pairsOKFrom_append, Bool.and_eq_true]
        refine ⟨hpv pv, ?_⟩
        simp only [pairsOKFrom, hlast pv, Bool.and_eq_true]
        exact ⟨by simp [clearCheck], hih.1 (DFSEvent.clear t)⟩
      · intro hb2 d
        rw [lastEv_append]
        simp only [lastEv]
        exact hih.2 hb2 (DFSEvent.clear t)

theorem tdfsA_trace {g : DirectedGraph V} (hwf : WF g) :
    ∀ (fuel : Nat) (seen rs : List Key) (key : Key),
      (∀ pv, pairsOKFrom pv (tdfsA g fuel seen rs key).2.2.2 = true) ∧
      ((tdfsA g fuel seen rs key).1 = false →
        ∀ d, lastEv d (tdfsA g fuel seen rs key).2.2.2 = DFSEvent.exit key) := by
  intro fuel
  induction fuel with
  | zero =>
    intro seen rs key
    exact ⟨fun pv => rfl, fun hfalse => absurd hfalse (by simp [tdfsA])⟩
  | succ n ih =>
    intro seen rs key
    by_cases hk : key ∈ rs
    · simp only [tdfsA, if_pos hk]
      exact ⟨fun pv => rfl, fun hfalse => absurd hfalse (by simp)⟩
    · rcases hf : tdfsFold (fun s r k => tdfsA g n s r k) key (lookupE g key)
          (minsert key seen) (key :: rs) with ⟨b2, s2, r2, ev2⟩
      have hih := tdfsFold_trace (fun s r k => tdfsA g n s r k) key
        (fun s r t pv => (ih s r t).1 pv)
        (fun s r t hf' d => (ih s r t).2 hf' d)
        (lookupE g key) (minsert key seen) (key :: rs)
        (fun q hq => (WF_lookupE hwf key q hq).1)
      rw [hf] at hih
      simp only [tdfsA, if_neg hk, hf]
      constructor
      · intro pv
        simp only [pairsOKFrom, Bool.and_eq_true]
        exact ⟨by simp [clearCheck], hih.1 (DFSEvent.enter key (decide (key ∈ seen)))⟩
      · intro hb2 d
        simp only [lastEv]
        exact hih.2 hb2 (DFSEvent.enter key (decide (key ∈ seen)))

theorem tIsCyclicGo_pairs {g : DirectedGraph V} (hwf : WF g) (fuel : Nat) :
    ∀ (rest : List (Key × V)) (seen : List Key) (pv : DFSEvent),
      pairsOKFrom pv (tIsCyclicGo g fuel rest seen).2 = true := by
  intro rest
  induction rest with
  | nil => intro seen pv; rfl
  | cons q0 rest ih =>
    obtain ⟨key, v⟩ := q0
    intro seen pv
    by_cases hk : key ∈ seen
    · simp only [tIsCyclicGo, if_pos hk]
      exact ih seen pv
    · rcases hct : tdfsA g fuel seen [] key with ⟨b', s', r', ev'⟩
      have hpv : ∀ pv', pairsOKFrom pv' ev' = true := by
        intro pv'
        have h := (tdfsA_trace hwf fuel seen [] key).1 pv'
        rw [hct] at h
        exact h
      cases b' with
      | true =>
        simp only [tIsCyclicGo, if_neg hk, hct]
        exact hpv pv
      | false =>
        rcases hf : tIsCyclicGo g fuel rest s' with ⟨b2, ev2⟩
        simp only [tIsCyclicGo, if_neg hk, hct, hf]
        rw [pairsOKFrom_append, Bool.and_eq_true]
        refine ⟨hpv pv, ?_⟩
        have h := ih s' (lastEv pv ev')
        rw [hf] at h
        exact h

theorem clearsOK_of_pairs {l : List DFSEvent} (h : ∀ pv, pairsOKFrom pv l = true) :
    clearsOK l = true := by
  cases l with
  | nil => rfl
  | cons e rest =>
    have h2 := h (DFSEvent.enter "" false)
    simp only [pairsOKFrom, Bool.and_eq_true] at h2
    cases e with
    | clear k => simp [clearCheck] at h2
    | enter k f =>
      simp only [clearsOK, Bool.and_eq_true]
      exact ⟨by simp, h2.2⟩
    | exit k =>
      simp only [clearsOK, Bool.and_eq_true]
      exact ⟨by simp, h2.2⟩

/-- C3, amended: the cycle-detection traversal does not implement the "never
re-explore a globally seen node" half of standard white/gray/black coloring
(the seen set is consulted only when picking DFS roots — see the
counterexample), but the on-current-path bookkeeping is standard: the traced
traversal computes exactly the same answer as `IsCyclic`, and every clearing of
an on-current-path mark (`rs[to] = false`) happens immediately after the `exit`
of that same node, i.e. only after all of the node's successors have been
explored, never mid-subtree. -/
theorem isCyclic_trace_clears (g : DirectedGraph V) (hwf : WF g) :
    (tIsCyclic g).1 = IsCyclic g ∧ clearsOK (tIsCyclic g).2 = true :=
  ⟨tIsCyclicGo_agree g (g.nodes.length + 1) g.nodes [],
   clearsOK_of_pairs (fun pv => tIsCyclicGo_pairs hwf (g.nodes.length + 1) g.nodes [] pv)⟩

/-- C3 witness: the amended statement at the concrete diamond graph. -/
theorem isCyclic_trace_clears_concrete :
    (tIsCyclic gDiamond).1 = IsCyclic gDiamond ∧ clearsOK (tIsCyclic gDiamond).2 = true :=
  isCyclic_trace_clears gDiamond (by decide)

/-- C3 counterexample: on the concrete (acyclic, well-formed) diamond graph
a→b, a→c, b→d, c→d, the single `IsCyclic` call finishes node "d" (the `exit`
at position 3 of its trace) and later re-enters it while it is already marked
globally seen (the `enter "d" true` at position 8): a fully processed node is
re-explored, contradicting the claimed coloring discipline. -/
theorem dfs_reenters_seen_node :
    (tIsCyclic gDiamond).2.get? 3 = some (DFSEvent.exit "d") ∧
    (tIsCyclic gDiamond).2.get? 8 = some (DFSEvent.enter "d" true) := by
  exact ⟨by decide, by decide⟩

/-! ### C9: the error path of Edges leaks the read lock -/

/-- C9 (code bug): the claim says every operation, on every path including its
error paths, releases any lock it acquired before returning.  The
lock-instrumented `EdgesLocked` computes exactly the same result as `Edges`,
and at the failing input — `Edges` called with a key absent from the node
table — its lock trace contains the `RLock` acquisition and no matching
`RUnlock`: the `ErrorNodeNotFound` return of the source leaves the read lock
held, so any subsequent write-lock acquisition would block forever. -/
theorem edges_error_leaks_lock :
    (∀ (V : Type) (g : DirectedGraph V) (a : Key), (EdgesLocked g a).1 = Edges g a) ∧
    (EdgesLocked gDiamond "z").1 = ([], some Err.nodeNotFound) ∧
    (EdgesLocked gDiamond "z").2.count LockEvent.rlock = 1 ∧
    (EdgesLocked gDiamond "z").2.count LockEvent.runlock = 0 := by
  refine ⟨?_, by decide, by decide, by decide⟩
  intro V g a
  cases hx : lookupKey a g.nodes with
  | none => simp [EdgesLocked, Edges, hx]
  | some w => simp [EdgesLocked, Edges, hx]

end Golib
